import Mathlib

/-!
Shallow embedding of `src/kicad_symbol_tool/symbol_file.py` (kicad-symbol-tool).

The S-expression trees produced by the external `sexpdata` collaborator are
modelled by `SExp`: atoms are symbols (`Symbol(...)` objects, which in
`sexpdata` are a subclass of `str`), plain strings, or integers; everything
else is a list.  Python `dict`s (used both for per-symbol property maps and
for the symbol table) are modelled by association lists together with the
operation `dinsert`, which has exactly Python's assignment semantics:
`d[k] = v` replaces the value in place when `k` is already a key (keeping its
position) and appends `(k, v)` otherwise.  Fallible Python code (IndexError,
failed `int()` conversion, `assert`, raised exceptions) is modelled with
`Except String`.
-/

inductive SExp where
  | sym  : String → SExp
  | str  : String → SExp
  | int  : Int → SExp
  | list : List SExp → SExp
deriving Repr

/-!
Structural decidable equality for `SExp` (the nested inductive rules out
`deriving DecidableEq`).
-/
mutual

def SExp.decEq : (a b : SExp) → Decidable (a = b)
  | .sym a, .sym b =>
    match String.decEq a b with
    | isTrue h => isTrue (by rw [h])
    | isFalse h => isFalse (by intro hc; injection hc with hc; exact h hc)
  | .str a, .str b =>
    match String.decEq a b with
    | isTrue h => isTrue (by rw [h])
    | isFalse h => isFalse (by intro hc; injection hc with hc; exact h hc)
  | .int a, .int b =>
    match Int.decEq a b with
    | isTrue h => isTrue (by rw [h])
    | isFalse h => isFalse (by intro hc; injection hc with hc; exact h hc)
  | .list a, .list b =>
    match SExp.decEqList a b with
    | isTrue h => isTrue (by rw [h])
    | isFalse h => isFalse (by intro hc; injection hc with hc; exact h hc)
  | .sym _, .str _ => isFalse (fun h => SExp.noConfusion h)
  | .sym _, .int _ => isFalse (fun h => SExp.noConfusion h)
  | .sym _, .list _ => isFalse (fun h => SExp.noConfusion h)
  | .str _, .sym _ => isFalse (fun h => SExp.noConfusion h)
  | .str _, .int _ => isFalse (fun h => SExp.noConfusion h)
  | .str _, .list _ => isFalse (fun h => SExp.noConfusion h)
  | .int _, .sym _ => isFalse (fun h => SExp.noConfusion h)
  | .int _, .str _ => isFalse (fun h => SExp.noConfusion h)
  | .int _, .list _ => isFalse (fun h => SExp.noConfusion h)
  | .list _, .sym _ => isFalse (fun h => SExp.noConfusion h)
  | .list _, .str _ => isFalse (fun h => SExp.noConfusion h)
  | .list _, .int _ => isFalse (fun h => SExp.noConfusion h)

def SExp.decEqList : (xs ys : List SExp) → Decidable (xs = ys)
  | [], [] => isTrue rfl
  | [], _ :: _ => isFalse (fun h => List.noConfusion h)
  | _ :: _, [] => isFalse (fun h => List.noConfusion h)
  | x :: xs, y :: ys =>
    match SExp.decEq x y, SExp.decEqList xs ys with
    | isTrue h₁, isTrue h₂ => isTrue (by rw [h₁, h₂])
    | isFalse h₁, _ =>
      isFalse (by intro hc; injection hc with hh ht; exact h₁ hh)
    | isTrue _, isFalse h₂ =>
      isFalse (by intro hc; injection hc with hh ht; exact h₂ ht)

end


instance : DecidableEq SExp := SExp.decEq

/-- Python `str(x)` on the atoms that occur in symbol files: a `sexpdata`
`Symbol` is a `str` subclass so `str` is the identity on it; `str` of an
`int` renders it in decimal.  `str` of a Python list is its `repr`; no
theorem below ever relies on that text (it is only ever used as a dictionary
key or compared for membership), so it is rendered opaquely. -/
def pyStr : SExp → String
  | .sym s => s
  | .str s => s
  | .int n => toString n
  | .list _ => "[list]"

/-- Python `int(x)`: identity on ints, decimal parse of (the text of) a
string or `Symbol`; a list raises `TypeError` (`none`). -/
def pyInt : SExp → Option Int
  | .int n => some n
  | .str s => s.toInt?
  | .sym s => s.toInt?
  | .list _ => none

/-- Python `s.startswith(pre)`: the character-sequence prefix test,
implemented on the underlying character lists so that it evaluates inside
the kernel (`String.startsWith` is defined by well-founded recursion and
does not reduce definitionally). -/
def pyStartsWith (s pre : String) : Bool := pre.data.isPrefixOf s.data

/-- Python truthiness of an S-expression node (`sexpdata.Symbol` subclasses
`str`, so the empty symbol is falsy like the empty string). -/
def truthy : SExp → Bool
  | .sym s => s ≠ ""
  | .str s => s ≠ ""
  | .int n => n ≠ 0
  | .list l => l ≠ []

/-- Python `==` between an S-expression node and a `Symbol` literal:
`sexpdata.Symbol` subclasses `str` and inherits string equality, so a
`Symbol` *and* a plain string with the same text both compare equal to
`Symbol("t")`; ints and lists never do.  `atomText e = some "t"` is exactly
`e == Symbol("t")`. -/
def atomText : SExp → Option String
  | .sym t => some t
  | .str t => some t
  | _ => none

/-- Association list with Python `dict` semantics. -/
abbrev Dict (α : Type) := List (String × α)

/-- `d[k] = v`: replace in place when the key exists, else append. -/
def dinsert {α : Type} (k : String) (v : α) : Dict α → Dict α
  | [] => [(k, v)]
  | (k₁, v₁) :: rest =>
    if k₁ = k then (k, v) :: rest else (k₁, v₁) :: dinsert k v rest

/-- `d.get(k)` / `k in d`: first (= unique, for genuine dicts) binding. -/
def dfind {α : Type} (k : String) : Dict α → Option α
  | [] => none
  | (k₁, v₁) :: rest => if k₁ = k then some v₁ else dfind k rest

/-- The keys of a dict, in insertion order. -/
def dkeys {α : Type} (d : Dict α) : List String := d.map Prod.fst

/-- A genuine Python dict never repeats a key. -/
def NodupKeys {α : Type} (d : Dict α) : Prop := (dkeys d).Nodup

/-! ## `KiCadSymbolLibrary` (class methods) -/

/-- `KiCadSymbolLibrary.get_kicad_version`: scan for the first
`(version …)` entry and return `int(item[1])`; `0` when none is present.
A `(version)` entry with no payload raises `IndexError`, a payload that
`int()` cannot convert raises `ValueError`/`TypeError`. -/
def get_kicad_version : List SExp → Except String Int
  | [] => .ok 0
  | item :: rest =>
    match item with
    | .list (x :: tail) =>
      if atomText x = some "version" then
        match tail.get? 0 with
        | none => .error "IndexError"
        | some p =>
          match pyInt p with
          | some n => .ok n
          | none => .error "ValueError"
      else get_kicad_version rest
    | _ => get_kicad_version rest

/-- `KiCadSymbolLibrary.symbol_derived_from`: the raw payload of the first
`(extends …)` entry, or `None`.  (This method does not apply `str`.) -/
def symbol_derived_from : List SExp → Except String (Option SExp)
  | [] => .ok none
  | item :: rest =>
    match item with
    | .list (x :: tail) =>
      if atomText x = some "extends" then
        match tail.get? 0 with
        | some e => .ok (some e)
        | none => .error "IndexError"
      else symbol_derived_from rest
    | _ => symbol_derived_from rest

/-- Truthiness of `symbol_derived_from`'s result, as tested by
`not derived_table` in `_get_symbols` (`None` is falsy). -/
def truthyOpt : Option SExp → Bool
  | none => false
  | some v => truthy v

/-- `KiCadSymbolLibrary._get_symbols`, iterating over `self._symbol_sexpr[1:]`.
For each `(symbol …)` element the code runs
`assert not derived_table and symbol_name.startswith("~")` — which Python
parses as `(not derived_table) and symbol_name.startswith("~")`, so the
assertion passes only for non-derived template-named symbols.  (The
`if derived_table:` block below the assert in the source is dead: when
`derived_table` is truthy the assert has already raised, and the local
`properties` dict it builds is discarded in any case.)  On success the
element's tail from index 2 on is stored under the symbol's name. -/
def get_symbols_aux (symbols : Dict (List SExp)) :
    List SExp → Except String (Dict (List SExp))
  | [] => .ok symbols
  | item :: rest =>
    match item with
    | .list (x :: tail) =>
      if atomText x = some "symbol" then
        match tail.get? 0 with
        | none => .error "IndexError"
        | some nameE =>
          let name := pyStr nameE
          match symbol_derived_from (x :: tail) with
          | .error e => .error e
          | .ok derived =>
            if truthyOpt derived = false ∧ pyStartsWith name "~" then
              get_symbols_aux (dinsert name (tail.drop 1) symbols) rest
            else
              .error ("Symbol " ++ name ++
                " cannot be both a template and derived from another template")
      else get_symbols_aux symbols rest
    | _ => get_symbols_aux symbols rest

/-- `KiCadSymbolLibrary.__init__` on an already-parsed tree: check the root
is a list, its head is `Symbol("kicad_symbol_lib")`, the version from
`get_kicad_version(sexpr[1:])` is `≥ 20211014`, then run `_get_symbols`
over `sexpr[1:]`.  The result is the class's observable state: its
`_symbols` dict (`_templates` and `_derived_symbols` are initialized but
never populated by the source). -/
def kicadSymbolLibraryInit (sexpr : SExp) : Except String (Dict (List SExp)) :=
  match sexpr with
  | .list (x :: rest) =>
    if atomText x = some "kicad_symbol_lib" then
      match get_kicad_version rest with
      | .error e => .error e
      | .ok v =>
        if v ≥ 20211014 then get_symbols_aux [] rest
        else .error "KiCad symbol library version must be >= 6.0"
    else .error "Not a valid KiCad symbol library file"
  | .list [] => .error "IndexError"
  | _ => .error "Failed to parse symbol file"

/-! ## `read_symbol_file` / `_parse_symbol_file` -/

/-- The version scan of `_parse_symbol_file`: the first `(version …)` entry
sets `version = float(item[1])` and breaks; no entry leaves it `None`.
`sexpdata` parses an integer version token as a Python `int`, and
`float(n)` is exact with `float(n) < 6.0 ↔ n < 6`, so the value is kept as
an integer; payloads that are not integers (or integer-valued strings) are
mapped to an error like Python's `ValueError`. -/
def findVersionFloat : List SExp → Except String (Option Int)
  | [] => .ok none
  | item :: rest =>
    match item with
    | .list (x :: tail) =>
      if atomText x = some "version" then
        match tail.get? 0 with
        | none => .error "IndexError"
        | some p =>
          match pyInt p with
          | some n => .ok (some n)
          | none => .error "ValueError"
      else findVersionFloat rest
    | _ => findVersionFloat rest

/-- The subitem loop of `_parse_symbol_file` over one `(symbol …)` element:
collect `(property k v …)` pairs as `properties[str(k)] = str(v)` and track
the last `(extends e)` payload as `str(e)`.  Sub-elements shorter than the
indices accessed raise `IndexError`. -/
def parsePropsAux (props : Dict String) (ext : Option String) :
    List SExp → Except String (Dict String × Option String)
  | [] => .ok (props, ext)
  | subitem :: rest =>
    match subitem with
    | .list (h :: t) =>
      if atomText h = some "property" then
        match t.get? 0, t.get? 1 with
        | some k, some v =>
          parsePropsAux (dinsert (pyStr k) (pyStr v) props) ext rest
        | _, _ => .error "IndexError"
      else if atomText h = some "extends" then
        match t.get? 0 with
        | some e => parsePropsAux props (some (pyStr e)) rest
        | none => .error "IndexError"
      else parsePropsAux props ext rest
    | _ => parsePropsAux props ext rest

/-- Processing of one `(symbol …)` element by `_parse_symbol_file`: the name
is `str(item[1])`; the subitem loop runs over the whole element (head and
name included); then `symbol_dict = properties.copy()`,
`symbol_dict["new_name"] = symbol_name`, and, when an `extends` sub-element
was seen, `symbol_dict["extends"] = extends_symbol`. -/
def parseSymbolItem (l : List SExp) : Except String (String × Dict String) :=
  match l.get? 1 with
  | none => .error "IndexError"
  | some nameE =>
    match parsePropsAux [] none l with
    | .error e => .error e
    | .ok (props, ext) =>
      let name := pyStr nameE
      let d := dinsert "new_name" name props
      match ext with
      | some e => .ok (name, dinsert "extends" e d)
      | none => .ok (name, d)

/-- The symbol loop of `_parse_symbol_file`: `symbols[symbol_name] = symbol_dict`
for every `(symbol …)` element of `content`, in order. -/
def parseSymbolsAux (symbols : Dict (Dict String)) :
    List SExp → Except String (Dict (Dict String))
  | [] => .ok symbols
  | item :: rest =>
    match item with
    | .list (x :: tail) =>
      if atomText x = some "symbol" then
        match parseSymbolItem (x :: tail) with
        | .error e => .error e
        | .ok (name, d) => parseSymbolsAux (dinsert name d symbols) rest
      else parseSymbolsAux symbols rest
    | _ => parseSymbolsAux symbols rest

/-- `_parse_symbol_file` (and hence `read_symbol_file`, which is
`_parse_symbol_file ∘ load`): find the version, raise `KiCadVersionError`
when it is `None` or `< 6.0`, then collect all symbol dictionaries. -/
def parse_symbol_file (content : List SExp) : Except String (Dict (Dict String)) :=
  match findVersionFloat content with
  | .error e => .error e
  | .ok none => .error "KiCadVersionError"
  | .ok (some n) =>
    if n < 6 then .error "KiCadVersionError"
    else parseSymbolsAux [] content

/-! ## `write_symbols_to_xlsx` -/

/-- One sheet of the written workbook: sheet name, header (column) list, and
one dict per data row. -/
structure Sheet where
  sheetName : String
  columns : List String
  rows : List (Dict String)
deriving Repr, DecidableEq

/-- `[k for k in symbols[template] if k not in ("extends", "new_name")]` —
iterating a dict iterates its keys in insertion order. -/
def template_props (tprops : Dict String) : List String :=
  (dkeys tprops).filter (fun k => k ≠ "extends" && k ≠ "new_name")

/-- One row of a sheet: `row = {"Symbol": name}`, then
`row[prop] = props.get(prop, "")` for each template property, then
`row["new_name"] = props.get("new_name", name)`. -/
def buildRow (name : String) (props : Dict String) (tps : List String) : Dict String :=
  dinsert "new_name" ((dfind "new_name" props).getD name)
    (tps.foldl (fun r p => dinsert p ((dfind p props).getD "") r) [("Symbol", name)])

/-- The `derived` list for one template: a row for every symbol whose
`props.get("extends")` equals the template name, in table order. -/
def derivedRows (symbols : Dict (Dict String)) (template : String)
    (tps : List String) : List (Dict String) :=
  symbols.filterMap (fun e =>
    if dfind "extends" e.2 = some template then some (buildRow e.1 e.2 tps)
    else none)

/-- The loop body of `write_symbols_to_xlsx` for one template: the sheet
written for it, or `none` when its `derived` list is empty (`if derived:`).
(The `dfind` fallback is unreachable: every `template` is a key of
`symbols`.) -/
def sheetFor (symbols : Dict (Dict String)) (template : String) : Option Sheet :=
  match dfind template symbols with
  | none => none
  | some tprops =>
    let tps := template_props tprops
    let derived := derivedRows symbols template tps
    if derived = [] then none
    else some { sheetName := template
                columns := "Symbol" :: "new_name" :: tps
                rows := derived }

/-- `write_symbols_to_xlsx`, with the workbook modelled as the list of
sheets actually written: `templates = [name for name in symbols if
name.startswith("~")]`, one sheet per template whose `derived` list is
non-empty, with the `DataFrame` columns
`["Symbol"] + ["new_name"] + template_props`. -/
def write_symbols_to_xlsx (symbols : Dict (Dict String)) : List Sheet :=
  ((dkeys symbols).filter (fun n => pyStartsWith n "~")).filterMap
    (sheetFor symbols)

/-! ## `read_xlsx_and_apply_to_sexp` -/

/-- Writing a cell value to the spreadsheet and reading it back with
`pd.read_excel`: a non-empty string round-trips as itself; an empty string
becomes an empty cell, read back as null (`NaN`). -/
def excelCell (s : String) : Option String :=
  if s = "" then none else some s

/-- A row as read back by `pd.read_excel`: its index is the sheet's column
list, each cell either null (`none`) or a value. -/
structure XRow where
  cells : Dict (Option String)
deriving Repr, DecidableEq

/-- Reading one written row back: `DataFrame(…, columns=cols)` reorders the
row dict to the column list (a column missing from the dict reads as null),
and the spreadsheet round trip maps empty strings to null. -/
def rowToXRow (columns : List String) (row : Dict String) : XRow :=
  ⟨columns.map (fun c => (c, (dfind c row).bind excelCell))⟩

/-- All rows of a written sheet, as read back. -/
def sheetRead (sh : Sheet) : List XRow := sh.rows.map (rowToXRow sh.columns)

/-- The inner cell loop of `read_xlsx_and_apply_to_sexp`:
`for prop in row.index: if prop != "Symbol" and pd.notnull(row[prop]):
updated_symbols[symbol_name][prop] = str(row[prop])` (cells read from text
cells are already strings, so `str` is the identity). -/
def overlayRow (props : Dict String) (cells : Dict (Option String)) : Dict String :=
  cells.foldl (fun ps c =>
    if c.1 ≠ "Symbol" then
      match c.2 with
      | some v => dinsert c.1 v ps
      | none => ps
    else ps) props

/-- One row of the import loop: `symbol_name = row["Symbol"]` (`KeyError`
when the sheet has no `Symbol` column; a null identifier is never a dict
key, so the row is skipped); a row whose identifier is not a key of
`updated_symbols` is skipped silently; otherwise the cell loop overlays the
symbol's dict. -/
def applyRow (updated : Dict (Dict String)) (row : XRow) :
    Except String (Dict (Dict String)) :=
  match dfind "Symbol" row.cells with
  | none => .error "KeyError"
  | some none => .ok updated
  | some (some name) =>
    match dfind name updated with
    | none => .ok updated
    | some props => .ok (dinsert name (overlayRow props row.cells) updated)

/-- The row loop over one sheet. -/
def applyRows (updated : Dict (Dict String)) :
    List XRow → Except String (Dict (Dict String))
  | [] => .ok updated
  | r :: rest =>
    match applyRow updated r with
    | .error e => .error e
    | .ok u => applyRows u rest

/-- The sheet loop of `read_xlsx_and_apply_to_sexp` over the workbook. -/
def applyTable (updated : Dict (Dict String)) :
    List Sheet → Except String (Dict (Dict String))
  | [] => .ok updated
  | sh :: rest =>
    match applyRows updated (sheetRead sh) with
    | .error e => .error e
    | .ok u => applyTable u rest

/-! ## `update_sexp_with_symbols` -/

/-- The subitem loop body of `update_sexp_with_symbols`: for a
`(property k …)` sub-element whose key `str(k)` is in `props`, the code
runs `subitem[2] = props[prop_name]`, writing a Python `str` (a string
atom) at index 2.  For a `(property)` element with no key, or a
`(property k)` element with no value slot, the Python original raises
`IndexError` (having changed nothing in this element); the model leaves
such an element unchanged. -/
def update_subitem (props : Dict String) (subitem : SExp) : SExp :=
  match subitem with
  | .list (h :: t) =>
    if atomText h = some "property" then
      match t.get? 0 with
      | some k =>
        match dfind (pyStr k) props with
        | some v => .list (h :: t.set 1 (.str v))
        | none => subitem
      | none => subitem
    else subitem
  | _ => subitem

/-- The symbol loop body of `update_sexp_with_symbols`: for a `(symbol …)`
element whose name `str(item[1])` is a key of `updated_symbols`, every
sub-element (the loop runs over the whole element, head and name included)
goes through the property update, and afterwards
`item[1] = props["new_name"]` when that key is present with a value
different from the current name.  A `(symbol)` element with no name raises
`IndexError` in Python (changing nothing); the model leaves it unchanged. -/
def update_item (updated : Dict (Dict String)) (item : SExp) : SExp :=
  match item with
  | .list (x :: tail) =>
    if atomText x = some "symbol" then
      match tail.get? 0 with
      | none => item
      | some nameE =>
        let name := pyStr nameE
        match dfind name updated with
        | none => item
        | some props =>
          let l₁ := (x :: tail).map (update_subitem props)
          match dfind "new_name" props with
          | some nn => if nn ≠ name then .list (l₁.set 1 (.str nn)) else .list l₁
          | none => .list l₁
    else item
  | _ => item

/-- `update_sexp_with_symbols`: the top-level loop (the function does not
recurse into nested lists). -/
def update_sexp_with_symbols (content : List SExp)
    (updated : Dict (Dict String)) : List SExp :=
  content.map (update_item updated)

/-- The full export→import→regenerate pipeline on an in-memory tree:
`read_symbol_file`, then `write_symbols_to_xlsx`, then
`read_xlsx_and_apply_to_sexp` (whose final step,
`write_symbol_dict_to_sexp`, regenerates the tree with
`update_sexp_with_symbols`). -/
def roundTrip (content : List SExp) : Except String (List SExp) :=
  match parse_symbol_file content with
  | .error e => .error e
  | .ok s =>
    match applyTable s (write_symbols_to_xlsx s) with
    | .error e => .error e
    | .ok s₁ => .ok (update_sexp_with_symbols content s₁)

/-! ## Heap model of `read_xlsx_and_apply_to_sexp`

`updated_symbols = original_symbols.copy()` is a shallow copy: it duplicates
only the outer name→object table, and both tables map each name to the
*same* inner property-dict object.  To make that observable, the inner
dicts live in an explicit object store (`PHeap`, addressed by position) and
the outer dict maps names to addresses; the cell loop
`updated_symbols[symbol_name][prop] = …` is a store write.  The caller's
`original_symbols` is the dereference of the *original* outer table, so a
store write made through the copy is visible through it. -/

abbrev PHeap := List (Dict String)

/-- The mapping a caller holding `outer` observes in store `heap`. -/
def derefSymbols (outer : Dict Nat) (heap : PHeap) : Dict (Dict String) :=
  outer.map (fun e => (e.1, heap.getD e.2 []))

/-- One row of the import loop, acting on the store (same branch structure
as `applyRow`; the overlay is a write to the addressed inner dict). -/
def applyRowHeap (outer : Dict Nat) (heap : PHeap) (row : XRow) :
    Except String PHeap :=
  match dfind "Symbol" row.cells with
  | none => .error "KeyError"
  | some none => .ok heap
  | some (some name) =>
    match dfind name outer with
    | none => .ok heap
    | some addr => .ok (heap.set addr (overlayRow (heap.getD addr []) row.cells))

/-- The row loop over one sheet, acting on the store. -/
def applyRowsHeap (outer : Dict Nat) (heap : PHeap) :
    List XRow → Except String PHeap
  | [] => .ok heap
  | r :: rest =>
    match applyRowHeap outer heap r with
    | .error e => .error e
    | .ok h => applyRowsHeap outer h rest

/-- The sheet loop of `read_xlsx_and_apply_to_sexp`, acting on the store. -/
def applyTableHeap (outer : Dict Nat) (heap : PHeap) :
    List Sheet → Except String PHeap
  | [] => .ok heap
  | sh :: rest =>
    match applyRowsHeap outer heap (sheetRead sh) with
    | .error e => .error e
    | .ok h => applyTableHeap outer h rest

/-! ## Dictionary lemmas -/

/-! ## Fold lemmas for sequences of dict assignments -/

/-- A sequence of Python dict assignments `d[k] = v`, in order. -/
def dinsertAll {α : Type} (init : Dict α) (ps : List (String × α)) : Dict α :=
  ps.foldl (fun d q => dinsert q.1 q.2 d) init

/-! ## Characterizing the parse of one symbol element -/

/-- The (key, value) pair contributed by one sub-element to the `properties`
dict of `_parse_symbol_file` (`none` for sub-elements that contribute
nothing; short `(property …)` elements make the parse raise, so their
`none` here is never reached under a successful parse). -/
def propEntry : SExp → Option (String × String)
  | .list (h :: t) =>
    if atomText h = some "property" then
      match t.get? 0, t.get? 1 with
      | some k, some v => some (pyStr k, pyStr v)
      | _, _ => none
    else none
  | _ => none

/-- The property pairs of a symbol element, in declaration order. -/
def propPairs (l : List SExp) : List (String × String) := l.filterMap propEntry

/-- The property keys of a symbol element, in declaration order. -/
def propKeys (l : List SExp) : List String := (propPairs l).map Prod.fst

/-- The payload of an `(extends …)` sub-element (property elements checked
first, mirroring the parse's branch order). -/
def extendsPayload : SExp → Option SExp
  | .list (h :: t) =>
    if atomText h = some "property" then none
    else if atomText h = some "extends" then t.get? 0
    else none
  | _ => none

/-- All `extends` payloads of a symbol element, in order. -/
def extendsPayloads (l : List SExp) : List SExp := l.filterMap extendsPayload

/-- The `extends_symbol` value after scanning `l`: the last payload seen
(as a string), else the incoming value. -/
def lastExt (ext : Option String) : List SExp → Option String
  | [] => ext
  | s :: rest =>
    match extendsPayload s with
    | some e => lastExt (some (pyStr e)) rest
    | none => lastExt ext rest

/-- The name under which a top-level element is registered by the symbol
loops (`none` for elements that are not `(symbol …)` entries with a name). -/
def symbolNameOf : SExp → Option String
  | .list (x :: tail) =>
    if atomText x = some "symbol" then (tail.get? 0).map pyStr else none
  | _ => none

/-- The names of all symbol elements of a tree, in order. -/
def symbolNames (content : List SExp) : List String :=
  content.filterMap symbolNameOf

/-! ## Claim theorems: version reading (C8), construction bugs (C1, C2) -/

/-- A top-level element that `get_kicad_version`'s scan recognizes as a
`(version …)` entry. -/
def isVersionItem : SExp → Bool
  | .list (x :: _) => decide (atomText x = some "version")
  | _ => false

/-! ## Claim C10: the pseudo-keys of the parsed symbol dictionaries -/

/-! ## Claim C7: import row handling -/

/-! ## Claim C5: sheet structure of the export -/

/-- The names of the symbols whose `extends` value equals `template`, in
table order: the claim's "derived symbols of that template". -/
def derivedNames (symbols : Dict (Dict String)) (template : String) : List String :=
  symbols.filterMap (fun e =>
    if dfind "extends" e.2 = some template then some e.1 else none)

/-! ## Claim C6: sheet columns and empty cells -/

/-! ## Claim C4: frame property of `update_sexp_with_symbols` -/

/-- A top-level element that the update loop recognizes and touches: a
`(symbol name …)` element whose name `str(item[1])` is a key of the update
mapping. -/
def knownSymbolItem (updated : Dict (Dict String)) : SExp → Bool
  | .list (x :: tail) =>
    decide (atomText x = some "symbol") &&
      (match tail.get? 0 with
       | some nameE => (dfind (pyStr nameE) updated).isSome
       | none => false)
  | _ => false

/-- A sub-element whose value slot the update writes: a `(property k …)`
element whose key `str(k)` occurs in the symbol's update mapping. -/
def matchingProp (props : Dict String) : SExp → Bool
  | .list (h :: t) =>
    decide (atomText h = some "property") &&
      (match t.get? 0 with
       | some k => (dfind (pyStr k) props).isSome
       | none => false)
  | _ => false

/-- The name element of an updated symbol after the update: replaced by
`props["new_name"]` when that key is present with a different value,
otherwise put through the sub-element update like every other element. -/
def renamedNameElem (props : Dict String) (nameE : SExp) : SExp :=
  match dfind "new_name" props with
  | some nn => if nn ≠ pyStr nameE then .str nn else update_subitem props nameE
  | none => update_subitem props nameE

/-! ## Claim C3: the export→import→regenerate round trip -/

/-- String atoms (`sexpdata` renders Python `str` values as quoted
strings; property values in KiCad files are quoted). -/
def isStrAtom : SExp → Bool
  | .str _ => true
  | _ => false

/-- List nodes. -/
def SExp.isList : SExp → Bool
  | .list _ => true
  | _ => false

/-- Every `(property …)` sub-element of the symbol element carries a string
atom in its value slot (index 2). -/
def propValuesStr (l : List SExp) : Bool :=
  l.all (fun sub => match sub with
    | SExp.list (h :: t) =>
      if atomText h = some "property" then
        match t.get? 1 with
        | some v => isStrAtom v
        | none => true
      else true
    | _ => true)

/-- A well-formed `(symbol …)` element: its name is an atom, its property
values are string atoms, its property keys are distinct and none of them
collides with the reserved table keys `new_name` / `extends` / `Symbol`. -/
def goodSymbolItem (l : List SExp) : Bool :=
  (match l.get? 1 with
   | some a => !a.isList
   | none => true)
  && propValuesStr l
  && decide ((propKeys l).Nodup)
  && (propKeys l).all (fun k =>
       k ≠ "new_name" && k ≠ "extends" && k ≠ "Symbol")

/-- A well-formed library tree: distinct symbol names and well-formed
symbol elements. -/
def goodTree (content : List SExp) : Bool :=
  decide ((symbolNames content).Nodup)
  && content.all (fun item => match item with
       | SExp.list (x :: tail) =>
         if atomText x = some "symbol" then goodSymbolItem (x :: tail) else true
       | _ => true)

/-! ## Theorems -/

theorem dfind_dinsert_self {α : Type} (k : String) (v : α) (d : Dict α) :
    dfind k (dinsert k v d) = some v := by
  induction d with
  | nil => simp [dinsert, dfind]
  | cons e rest ih =>
    obtain ⟨k₁, v₁⟩ := e
    by_cases h : k₁ = k
    · simp [dinsert, dfind, h]
    · simp [dinsert, dfind, h, ih]

theorem dkeys_cons {α : Type} (k₁ : String) (v₁ : α) (rest : Dict α) :
    dkeys ((k₁, v₁) :: rest) = k₁ :: dkeys rest := rfl

theorem nodupKeys_cons {α : Type} {k₁ : String} {v₁ : α} {rest : Dict α} :
    NodupKeys ((k₁, v₁) :: rest) ↔ k₁ ∉ dkeys rest ∧ NodupKeys rest := by
  unfold NodupKeys
  rw [dkeys_cons]
  exact List.nodup_cons

theorem mem_dkeys_of_mem {α : Type} {e : String × α} {d : Dict α}
    (h : e ∈ d) : e.1 ∈ dkeys d :=
  List.mem_map_of_mem Prod.fst h

theorem dinsert_cons_self {α : Type} (k : String) (v v₁ : α) (rest : Dict α) :
    dinsert k v ((k, v₁) :: rest) = (k, v) :: rest := by
  simp [dinsert]

theorem dinsert_cons_ne {α : Type} {k k₁ : String} {v : α} {v₁ : α}
    {rest : Dict α} (h : k₁ ≠ k) :
    dinsert k v ((k₁, v₁) :: rest) = (k₁, v₁) :: dinsert k v rest := by
  simp [dinsert, h]

theorem dfind_cons_self {α : Type} (k : String) (v₁ : α) (rest : Dict α) :
    dfind k ((k, v₁) :: rest) = some v₁ := by
  simp [dfind]

theorem dfind_cons_ne {α : Type} {k k₁ : String} {v₁ : α} {rest : Dict α}
    (h : k₁ ≠ k) : dfind k ((k₁, v₁) :: rest) = dfind k rest := by
  simp [dfind, h]

theorem dfind_dinsert_ne {α : Type} {k k₁ : String} (v : α) (d : Dict α)
    (h : k₁ ≠ k) : dfind k (dinsert k₁ v d) = dfind k d := by
  induction d with
  | nil => simp [dinsert, dfind, h]
  | cons e rest ih =>
    obtain ⟨k₂, v₂⟩ := e
    by_cases h₂ : k₂ = k₁
    · subst h₂
      rw [dinsert_cons_self, dfind_cons_ne h, dfind_cons_ne h]
    · rw [dinsert_cons_ne h₂]
      by_cases h₃ : k₂ = k
      · subst h₃
        rw [dfind_cons_self, dfind_cons_self]
      · rw [dfind_cons_ne h₃, dfind_cons_ne h₃, ih]

theorem dinsert_eq_of_dfind {α : Type} {k : String} {v : α} {d : Dict α}
    (h : dfind k d = some v) : dinsert k v d = d := by
  induction d with
  | nil => simp [dfind] at h
  | cons e rest ih =>
    obtain ⟨k₁, v₁⟩ := e
    by_cases h₁ : k₁ = k
    · subst h₁
      rw [dfind_cons_self] at h
      injection h with h
      rw [dinsert_cons_self, h]
    · rw [dfind_cons_ne h₁] at h
      rw [dinsert_cons_ne h₁, ih h]

theorem dfind_eq_none_iff {α : Type} (k : String) (d : Dict α) :
    dfind k d = none ↔ k ∉ dkeys d := by
  induction d with
  | nil => simp [dfind, dkeys]
  | cons e rest ih =>
    obtain ⟨k₁, v₁⟩ := e
    rw [dkeys_cons]
    by_cases h₁ : k₁ = k
    · subst h₁
      rw [dfind_cons_self]
      simp
    · rw [dfind_cons_ne h₁, ih, List.mem_cons]
      constructor
      · intro hr hc
        rcases hc with hc | hc
        · exact h₁ hc.symm
        · exact hr hc
      · intro hc hr
        exact hc (Or.inr hr)

theorem dkeys_dinsert_mem {α : Type} {k : String} (v : α) {d : Dict α}
    (h : k ∈ dkeys d) : dkeys (dinsert k v d) = dkeys d := by
  induction d with
  | nil => exact absurd h (by simp [dkeys])
  | cons e rest ih =>
    obtain ⟨k₁, v₁⟩ := e
    rw [dkeys_cons] at h
    by_cases h₁ : k₁ = k
    · subst h₁
      rw [dinsert_cons_self, dkeys_cons, dkeys_cons]
    · have h₂ : k ∈ dkeys rest := by
        rcases List.mem_cons.mp h with h₂ | h₂
        · exact absurd h₂.symm h₁
        · exact h₂
      rw [dinsert_cons_ne h₁, dkeys_cons, dkeys_cons, ih h₂]

theorem dkeys_dinsert_not_mem {α : Type} {k : String} (v : α) {d : Dict α}
    (h : k ∉ dkeys d) : dkeys (dinsert k v d) = dkeys d ++ [k] := by
  induction d with
  | nil => simp [dinsert, dkeys]
  | cons e rest ih =>
    obtain ⟨k₁, v₁⟩ := e
    rw [dkeys_cons] at h
    have h₁ : ¬(k = k₁ ∨ k ∈ dkeys rest) := fun hc => h (List.mem_cons.mpr hc)
    push_neg at h₁
    rw [dinsert_cons_ne (Ne.symm h₁.1), dkeys_cons, dkeys_cons,
      ih h₁.2, List.cons_append]

theorem nodupKeys_dinsert {α : Type} (k : String) (v : α) {d : Dict α}
    (h : NodupKeys d) : NodupKeys (dinsert k v d) := by
  by_cases hm : k ∈ dkeys d
  · unfold NodupKeys at h ⊢
    rw [dkeys_dinsert_mem v hm]
    exact h
  · unfold NodupKeys at h ⊢
    rw [dkeys_dinsert_not_mem v hm]
    refine List.Nodup.append h (List.nodup_singleton k) ?_
    intro a ha hb
    rw [List.mem_singleton] at hb
    subst hb
    exact hm ha

theorem dfind_of_mem_nodup {α : Type} {k : String} {v : α} {d : Dict α}
    (hmem : (k, v) ∈ d) (hnd : NodupKeys d) : dfind k d = some v := by
  induction d with
  | nil => simp at hmem
  | cons e rest ih =>
    obtain ⟨k₁, v₁⟩ := e
    rw [nodupKeys_cons] at hnd
    rcases List.mem_cons.mp hmem with h | h
    · injection h with ha hb
      subst ha
      subst hb
      rw [dfind_cons_self]
    · have hne : k₁ ≠ k := by
        intro hk
        subst hk
        exact hnd.1 (mem_dkeys_of_mem h)
      rw [dfind_cons_ne hne]
      exact ih h hnd.2

theorem mem_of_mem_dinsert {α : Type} {k : String} {v : α} {d : Dict α}
    {e : String × α} (h : e ∈ dinsert k v d) : e = (k, v) ∨ e ∈ d := by
  induction d with
  | nil =>
    simp [dinsert] at h
    exact Or.inl h
  | cons e₁ rest ih =>
    obtain ⟨k₁, v₁⟩ := e₁
    by_cases h₁ : k₁ = k
    · subst h₁
      rw [dinsert_cons_self] at h
      rcases List.mem_cons.mp h with h | h
      · exact Or.inl h
      · exact Or.inr (List.mem_cons_of_mem _ h)
    · rw [dinsert_cons_ne h₁] at h
      rcases List.mem_cons.mp h with h | h
      · exact Or.inr (h ▸ List.mem_cons_self _ _)
      · rcases ih h with h₂ | h₂
        · exact Or.inl h₂
        · exact Or.inr (List.mem_cons_of_mem _ h₂)

theorem dinsertAll_nil {α : Type} (init : Dict α) : dinsertAll init [] = init := rfl

theorem dinsertAll_cons {α : Type} (init : Dict α) (q : String × α)
    (ps : List (String × α)) :
    dinsertAll init (q :: ps) = dinsertAll (dinsert q.1 q.2 init) ps := rfl

theorem dfind_dinsertAll_not_mem {α : Type} {k : String}
    {ps : List (String × α)} (init : Dict α) (h : k ∉ ps.map Prod.fst) :
    dfind k (dinsertAll init ps) = dfind k init := by
  induction ps generalizing init with
  | nil => rfl
  | cons q rest ih =>
    rw [List.map_cons, List.mem_cons] at h
    push_neg at h
    rw [dinsertAll_cons, ih _ h.2, dfind_dinsert_ne _ _ (Ne.symm h.1)]

theorem dfind_dinsertAll_mem_nodup {α : Type} {k : String} {v : α}
    {ps : List (String × α)} (init : Dict α)
    (hnd : (ps.map Prod.fst).Nodup) (hmem : (k, v) ∈ ps) :
    dfind k (dinsertAll init ps) = some v := by
  induction ps generalizing init with
  | nil => simp at hmem
  | cons q rest ih =>
    rw [List.map_cons, List.nodup_cons] at hnd
    rcases List.mem_cons.mp hmem with h | h
    · subst h
      rw [dinsertAll_cons]
      have hnm : k ∉ rest.map Prod.fst := hnd.1
      rw [dfind_dinsertAll_not_mem _ hnm, dfind_dinsert_self]
    · rw [dinsertAll_cons]
      exact ih _ hnd.2 h

theorem dfind_dinsertAll_gmap {α : Type} {k : String} (g : String → α)
    {ks : List String} (init : Dict α) (h : k ∈ ks) :
    dfind k (dinsertAll init (ks.map (fun q => (q, g q)))) = some (g k) := by
  induction ks generalizing init with
  | nil => simp at h
  | cons a rest ih =>
    rw [List.map_cons, dinsertAll_cons]
    by_cases hr : k ∈ rest
    · exact ih _ hr
    · have ha : k = a := by
        rcases List.mem_cons.mp h with h₁ | h₁
        · exact h₁
        · exact absurd h₁ hr
      subst ha
      have : k ∉ (rest.map (fun q => (q, g q))).map Prod.fst := by
        rw [List.map_map]
        simpa using hr
      rw [dfind_dinsertAll_not_mem _ this, dfind_dinsert_self]

theorem nodupKeys_dinsertAll {α : Type} {init : Dict α}
    (ps : List (String × α)) (h : NodupKeys init) :
    NodupKeys (dinsertAll init ps) := by
  induction ps generalizing init with
  | nil => exact h
  | cons q rest ih =>
    rw [dinsertAll_cons]
    exact ih (nodupKeys_dinsert q.1 q.2 h)

theorem mem_of_mem_dinsertAll {α : Type} {init : Dict α}
    {ps : List (String × α)} {e : String × α}
    (h : e ∈ dinsertAll init ps) : e ∈ init ∨ e ∈ ps := by
  induction ps generalizing init with
  | nil => exact Or.inl h
  | cons q rest ih =>
    rw [dinsertAll_cons] at h
    rcases ih h with h₁ | h₁
    · rcases mem_of_mem_dinsert h₁ with h₂ | h₂
      · exact Or.inr (h₂ ▸ List.mem_cons_self _ _)
      · exact Or.inl h₂
    · exact Or.inr (List.mem_cons_of_mem _ h₁)

theorem dkeys_dinsertAll {α : Type} {ps : List (String × α)} {init : Dict α}
    (hnd : (ps.map Prod.fst).Nodup)
    (hdisj : ∀ k ∈ ps.map Prod.fst, k ∉ dkeys init) :
    dkeys (dinsertAll init ps) = dkeys init ++ ps.map Prod.fst := by
  induction ps generalizing init with
  | nil => simp [dinsertAll_nil]
  | cons q rest ih =>
    rw [List.map_cons] at hnd hdisj ⊢
    rw [List.nodup_cons] at hnd
    rw [dinsertAll_cons,
      ih hnd.2 (by
        intro k hk
        have h₁ : k ≠ q.1 := fun hc => hnd.1 (hc ▸ hk)
        have h₂ := hdisj k (List.mem_cons_of_mem _ hk)
        rw [dkeys_dinsert_not_mem q.2 (hdisj q.1 (List.mem_cons_self _ _))]
        rw [List.mem_append, List.mem_singleton]
        rintro (hc | hc)
        · exact h₂ hc
        · exact h₁ hc),
      dkeys_dinsert_not_mem q.2 (hdisj q.1 (List.mem_cons_self _ _))]
    simp

theorem parsePropsAux_ok : ∀ (l : List SExp) (acc : Dict String)
    (ext : Option String) {props : Dict String} {ext₂ : Option String},
    parsePropsAux acc ext l = .ok (props, ext₂) →
    props = dinsertAll acc (propPairs l) ∧ ext₂ = lastExt ext l := by
  intro l
  induction l with
  | nil =>
    intro acc ext props ext₂ h
    simp only [parsePropsAux, Except.ok.injEq, Prod.mk.injEq] at h
    exact ⟨h.1.symm, h.2.symm⟩
  | cons sub rest ih =>
    intro acc ext props ext₂ h
    have hskip : ∀ (hpe : propEntry sub = none) (hep : extendsPayload sub = none),
        parsePropsAux acc ext rest = .ok (props, ext₂) →
        props = dinsertAll acc (propPairs (sub :: rest))
          ∧ ext₂ = lastExt ext (sub :: rest) := by
      intro hpe hep hrec
      have hres := ih acc ext hrec
      have hpp : propPairs (sub :: rest) = propPairs rest := by
        rw [propPairs, List.filterMap_cons_none hpe]
        rfl
      refine ⟨?_, ?_⟩
      · rw [hres.1, hpp]
      · rw [hres.2]
        simp only [lastExt, hep]
    cases sub with
    | sym s =>
      simp only [parsePropsAux] at h
      exact hskip rfl rfl h
    | str s =>
      simp only [parsePropsAux] at h
      exact hskip rfl rfl h
    | int n =>
      simp only [parsePropsAux] at h
      exact hskip rfl rfl h
    | list elems =>
      cases elems with
      | nil =>
        simp only [parsePropsAux] at h
        exact hskip rfl rfl h
      | cons hd t =>
        by_cases c₁ : atomText hd = some "property"
        · cases ht0 : t.get? 0 with
          | none =>
            have hred : parsePropsAux acc ext (SExp.list (hd :: t) :: rest)
                = .error "IndexError" := by
              simp only [parsePropsAux]
              rw [if_pos c₁, ht0]
            rw [hred] at h
            exact absurd h (by simp)
          | some k =>
            cases ht1 : t.get? 1 with
            | none =>
              have hred : parsePropsAux acc ext (SExp.list (hd :: t) :: rest)
                  = .error "IndexError" := by
                simp only [parsePropsAux]
                rw [if_pos c₁, ht0, ht1]
              rw [hred] at h
              exact absurd h (by simp)
            | some v =>
              have hred : parsePropsAux acc ext (SExp.list (hd :: t) :: rest)
                  = parsePropsAux (dinsert (pyStr k) (pyStr v) acc) ext rest := by
                simp only [parsePropsAux]
                rw [if_pos c₁, ht0, ht1]
              rw [hred] at h
              have hres := ih _ _ h
              have hpe : propEntry (SExp.list (hd :: t)) = some (pyStr k, pyStr v) := by
                simp only [propEntry]
                rw [if_pos c₁, ht0, ht1]
              have hep : extendsPayload (SExp.list (hd :: t)) = none := by
                simp only [extendsPayload]
                rw [if_pos c₁]
              have hpp : propPairs (SExp.list (hd :: t) :: rest)
                  = (pyStr k, pyStr v) :: propPairs rest := by
                rw [propPairs, List.filterMap_cons_some hpe]
                rfl
              refine ⟨?_, ?_⟩
              · rw [hres.1, hpp, dinsertAll_cons]
              · rw [hres.2]
                simp only [lastExt, hep]
        · by_cases c₂ : atomText hd = some "extends"
          · cases ht0 : t.get? 0 with
            | none =>
              have hred : parsePropsAux acc ext (SExp.list (hd :: t) :: rest)
                  = .error "IndexError" := by
                simp only [parsePropsAux]
                rw [if_neg c₁, if_pos c₂, ht0]
              rw [hred] at h
              exact absurd h (by simp)
            | some e =>
              have hred : parsePropsAux acc ext (SExp.list (hd :: t) :: rest)
                  = parsePropsAux acc (some (pyStr e)) rest := by
                simp only [parsePropsAux]
                rw [if_neg c₁, if_pos c₂, ht0]
              rw [hred] at h
              have hres := ih _ _ h
              have hpe : propEntry (SExp.list (hd :: t)) = none := by
                simp only [propEntry]
                rw [if_neg c₁]
              have hep : extendsPayload (SExp.list (hd :: t)) = some e := by
                simp only [extendsPayload]
                rw [if_neg c₁, if_pos c₂, ht0]
              have hpp : propPairs (SExp.list (hd :: t) :: rest)
                  = propPairs rest := by
                rw [propPairs, List.filterMap_cons_none hpe]
                rfl
              refine ⟨?_, ?_⟩
              · rw [hres.1, hpp]
              · rw [hres.2]
                simp only [lastExt, hep]
          · have hred : parsePropsAux acc ext (SExp.list (hd :: t) :: rest)
                = parsePropsAux acc ext rest := by
              simp only [parsePropsAux]
              rw [if_neg c₁, if_neg c₂]
            rw [hred] at h
            have hpe : propEntry (SExp.list (hd :: t)) = none := by
              simp only [propEntry]
              rw [if_neg c₁]
            have hep : extendsPayload (SExp.list (hd :: t)) = none := by
              simp only [extendsPayload]
              rw [if_neg c₁, if_neg c₂]
            exact hskip hpe hep h

theorem parseSymbolItem_ok {l : List SExp} {n : String} {d : Dict String}
    (h : parseSymbolItem l = .ok (n, d)) :
    (∃ nameE, l.get? 1 = some nameE ∧ n = pyStr nameE)
  ∧ d = (match lastExt none l with
         | some e =>
           dinsert "extends" e (dinsert "new_name" n (dinsertAll [] (propPairs l)))
         | none => dinsert "new_name" n (dinsertAll [] (propPairs l))) := by
  cases hget : l.get? 1 with
  | none =>
    simp only [parseSymbolItem, hget] at h
    exact absurd h (by simp)
  | some nameE =>
    cases hpp : parsePropsAux [] none l with
    | error e =>
      simp only [parseSymbolItem, hget, hpp] at h
      exact absurd h (by simp)
    | ok pe =>
      obtain ⟨props, ext⟩ := pe
      have hchar := parsePropsAux_ok l [] none hpp
      simp only [parseSymbolItem, hget, hpp] at h
      cases ext with
      | some e =>
        simp only [Except.ok.injEq, Prod.mk.injEq] at h
        refine ⟨⟨nameE, rfl, h.1.symm⟩, ?_⟩
        rw [← hchar.2, ← h.2, ← h.1, hchar.1]
      | none =>
        simp only [Except.ok.injEq, Prod.mk.injEq] at h
        refine ⟨⟨nameE, rfl, h.1.symm⟩, ?_⟩
        rw [← hchar.2, ← h.2, ← h.1, hchar.1]

theorem symbolNameOf_of_item {x : SExp} {tail : List SExp} {n : String}
    {d : Dict String} (hx : atomText x = some "symbol")
    (hitem : parseSymbolItem (x :: tail) = .ok (n, d)) :
    symbolNameOf (SExp.list (x :: tail)) = some n := by
  obtain ⟨⟨nameE, hget, hn⟩, -⟩ := parseSymbolItem_ok hitem
  rw [List.get?_cons_succ] at hget
  simp only [symbolNameOf]
  rw [if_pos hx, hget, hn]
  rfl

theorem parseSymbolsAux_mem : ∀ (l : List SExp) (acc s : Dict (Dict String)),
    parseSymbolsAux acc l = .ok s → ∀ e ∈ s,
    e ∈ acc ∨ ∃ x tail, SExp.list (x :: tail) ∈ l ∧ atomText x = some "symbol"
      ∧ parseSymbolItem (x :: tail) = .ok e := by
  intro l
  induction l with
  | nil =>
    intro acc s h e he
    simp only [parseSymbolsAux, Except.ok.injEq] at h
    exact Or.inl (h ▸ he)
  | cons item rest ih =>
    intro acc s h e he
    have hstep : ∀ (hrec : parseSymbolsAux acc rest = .ok s),
        e ∈ acc ∨ ∃ x tail, SExp.list (x :: tail) ∈ item :: rest
          ∧ atomText x = some "symbol" ∧ parseSymbolItem (x :: tail) = .ok e := by
      intro hrec
      rcases ih acc s hrec e he with h₁ | ⟨x, tail, hmem, hx, hok⟩
      · exact Or.inl h₁
      · exact Or.inr ⟨x, tail, List.mem_cons_of_mem _ hmem, hx, hok⟩
    cases item with
    | sym a => exact hstep (by simpa only [parseSymbolsAux] using h)
    | str a => exact hstep (by simpa only [parseSymbolsAux] using h)
    | int a => exact hstep (by simpa only [parseSymbolsAux] using h)
    | list elems =>
      cases elems with
      | nil => exact hstep (by simpa only [parseSymbolsAux] using h)
      | cons x tail =>
        by_cases c : atomText x = some "symbol"
        · cases hsi : parseSymbolItem (x :: tail) with
          | error er =>
            have hred : parseSymbolsAux acc (SExp.list (x :: tail) :: rest)
                = .error er := by
              simp only [parseSymbolsAux]
              rw [if_pos c, hsi]
            rw [hred] at h
            exact absurd h (by simp)
          | ok nd =>
            obtain ⟨n₁, d₁⟩ := nd
            have hred : parseSymbolsAux acc (SExp.list (x :: tail) :: rest)
                = parseSymbolsAux (dinsert n₁ d₁ acc) rest := by
              simp only [parseSymbolsAux]
              rw [if_pos c, hsi]
            rw [hred] at h
            rcases ih _ s h e he with h₁ | ⟨x₂, tail₂, hmem, hx₂, hok₂⟩
            · rcases mem_of_mem_dinsert h₁ with h₂ | h₂
              · exact Or.inr ⟨x, tail, List.mem_cons_self _ _, c, h₂ ▸ hsi⟩
              · exact Or.inl h₂
            · exact Or.inr ⟨x₂, tail₂, List.mem_cons_of_mem _ hmem, hx₂, hok₂⟩
        · have hred : parseSymbolsAux acc (SExp.list (x :: tail) :: rest)
              = parseSymbolsAux acc rest := by
            simp only [parseSymbolsAux]
            rw [if_neg c]
          rw [hred] at h
          exact hstep h

theorem parseSymbolsAux_nodup : ∀ (l : List SExp) (acc s : Dict (Dict String)),
    NodupKeys acc → parseSymbolsAux acc l = .ok s → NodupKeys s := by
  intro l
  induction l with
  | nil =>
    intro acc s hacc h
    simp only [parseSymbolsAux, Except.ok.injEq] at h
    exact h ▸ hacc
  | cons item rest ih =>
    intro acc s hacc h
    cases item with
    | sym a => exact ih acc s hacc (by simpa only [parseSymbolsAux] using h)
    | str a => exact ih acc s hacc (by simpa only [parseSymbolsAux] using h)
    | int a => exact ih acc s hacc (by simpa only [parseSymbolsAux] using h)
    | list elems =>
      cases elems with
      | nil => exact ih acc s hacc (by simpa only [parseSymbolsAux] using h)
      | cons x tail =>
        by_cases c : atomText x = some "symbol"
        · cases hsi : parseSymbolItem (x :: tail) with
          | error er =>
            have hred : parseSymbolsAux acc (SExp.list (x :: tail) :: rest)
                = .error er := by
              simp only [parseSymbolsAux]
              rw [if_pos c, hsi]
            rw [hred] at h
            exact absurd h (by simp)
          | ok nd =>
            obtain ⟨n₁, d₁⟩ := nd
            have hred : parseSymbolsAux acc (SExp.list (x :: tail) :: rest)
                = parseSymbolsAux (dinsert n₁ d₁ acc) rest := by
              simp only [parseSymbolsAux]
              rw [if_pos c, hsi]
            rw [hred] at h
            exact ih _ s (nodupKeys_dinsert n₁ d₁ hacc) h
        · have hred : parseSymbolsAux acc (SExp.list (x :: tail) :: rest)
              = parseSymbolsAux acc rest := by
            simp only [parseSymbolsAux]
            rw [if_neg c]
          rw [hred] at h
          exact ih acc s hacc h

theorem symbolNames_cons_none (item : SExp) (rest : List SExp)
    (h : symbolNameOf item = none) :
    symbolNames (item :: rest) = symbolNames rest := by
  rw [symbolNames, List.filterMap_cons_none h]
  rfl

theorem symbolNames_cons_some (item : SExp) {n : String} (rest : List SExp)
    (h : symbolNameOf item = some n) :
    symbolNames (item :: rest) = n :: symbolNames rest := by
  rw [symbolNames, List.filterMap_cons_some h]
  rfl

theorem parseSymbolsAux_find_not_mem : ∀ (l : List SExp)
    (acc s : Dict (Dict String)) (n : String),
    parseSymbolsAux acc l = .ok s → n ∉ symbolNames l →
    dfind n s = dfind n acc := by
  intro l
  induction l with
  | nil =>
    intro acc s n h _
    simp only [parseSymbolsAux, Except.ok.injEq] at h
    rw [h]
  | cons item rest ih =>
    intro acc s n h hnm
    cases item with
    | sym a =>
      exact ih acc s n (by simpa only [parseSymbolsAux] using h)
        (by rwa [symbolNames_cons_none (SExp.sym a) rest rfl] at hnm)
    | str a =>
      exact ih acc s n (by simpa only [parseSymbolsAux] using h)
        (by rwa [symbolNames_cons_none (SExp.str a) rest rfl] at hnm)
    | int a =>
      exact ih acc s n (by simpa only [parseSymbolsAux] using h)
        (by rwa [symbolNames_cons_none (SExp.int a) rest rfl] at hnm)
    | list elems =>
      cases elems with
      | nil =>
        exact ih acc s n (by simpa only [parseSymbolsAux] using h)
          (by rwa [symbolNames_cons_none (SExp.list []) rest rfl] at hnm)
      | cons x tail =>
        by_cases c : atomText x = some "symbol"
        · cases hsi : parseSymbolItem (x :: tail) with
          | error er =>
            have hred : parseSymbolsAux acc (SExp.list (x :: tail) :: rest)
                = .error er := by
              simp only [parseSymbolsAux]
              rw [if_pos c, hsi]
            rw [hred] at h
            exact absurd h (by simp)
          | ok nd =>
            obtain ⟨n₁, d₁⟩ := nd
            have hred : parseSymbolsAux acc (SExp.list (x :: tail) :: rest)
                = parseSymbolsAux (dinsert n₁ d₁ acc) rest := by
              simp only [parseSymbolsAux]
              rw [if_pos c, hsi]
            rw [hred] at h
            rw [symbolNames_cons_some _ rest (symbolNameOf_of_item c hsi),
              List.mem_cons] at hnm
            push_neg at hnm
            rw [ih _ s n h hnm.2, dfind_dinsert_ne d₁ acc (Ne.symm hnm.1)]
        · have hred : parseSymbolsAux acc (SExp.list (x :: tail) :: rest)
              = parseSymbolsAux acc rest := by
            simp only [parseSymbolsAux]
            rw [if_neg c]
          rw [hred] at h
          have hso : symbolNameOf (SExp.list (x :: tail)) = none := by
            simp only [symbolNameOf]
            rw [if_neg c]
          exact ih acc s n h (by rwa [symbolNames_cons_none _ rest hso] at hnm)

theorem parseSymbolsAux_find : ∀ (l : List SExp) (acc s : Dict (Dict String)),
    parseSymbolsAux acc l = .ok s → (symbolNames l).Nodup →
    ∀ x tail n d, SExp.list (x :: tail) ∈ l → atomText x = some "symbol" →
    parseSymbolItem (x :: tail) = .ok (n, d) → dfind n s = some d := by
  intro l
  induction l with
  | nil =>
    intro acc s _ _ x tail n d hmem
    simp at hmem
  | cons item rest ih =>
    intro acc s h hnd x tail n d hmem hx hok
    rcases List.mem_cons.mp hmem with hitem | hitem
    · subst hitem
      have hred : parseSymbolsAux acc (SExp.list (x :: tail) :: rest)
          = parseSymbolsAux (dinsert n d acc) rest := by
        simp only [parseSymbolsAux]
        rw [if_pos hx, hok]
      rw [hred] at h
      rw [symbolNames_cons_some _ rest (symbolNameOf_of_item hx hok),
        List.nodup_cons] at hnd
      rw [parseSymbolsAux_find_not_mem rest _ s n h hnd.1,
        dfind_dinsert_self]
    · cases item with
      | sym a =>
        refine ih acc s (by simpa only [parseSymbolsAux] using h) ?_ x tail n d hitem hx hok
        rwa [symbolNames_cons_none (SExp.sym a) rest rfl] at hnd
      | str a =>
        refine ih acc s (by simpa only [parseSymbolsAux] using h) ?_ x tail n d hitem hx hok
        rwa [symbolNames_cons_none (SExp.str a) rest rfl] at hnd
      | int a =>
        refine ih acc s (by simpa only [parseSymbolsAux] using h) ?_ x tail n d hitem hx hok
        rwa [symbolNames_cons_none (SExp.int a) rest rfl] at hnd
      | list elems =>
        cases elems with
        | nil =>
          refine ih acc s (by simpa only [parseSymbolsAux] using h) ?_ x tail n d hitem hx hok
          rwa [symbolNames_cons_none (SExp.list []) rest rfl] at hnd
        | cons x₁ tail₁ =>
          by_cases c : atomText x₁ = some "symbol"
          · cases hsi : parseSymbolItem (x₁ :: tail₁) with
            | error er =>
              have hred : parseSymbolsAux acc (SExp.list (x₁ :: tail₁) :: rest)
                  = .error er := by
                simp only [parseSymbolsAux]
                rw [if_pos c, hsi]
              rw [hred] at h
              exact absurd h (by simp)
            | ok nd =>
              obtain ⟨n₁, d₁⟩ := nd
              have hred : parseSymbolsAux acc (SExp.list (x₁ :: tail₁) :: rest)
                  = parseSymbolsAux (dinsert n₁ d₁ acc) rest := by
                simp only [parseSymbolsAux]
                rw [if_pos c, hsi]
              rw [hred] at h
              refine ih _ s h ?_ x tail n d hitem hx hok
              rw [symbolNames_cons_some _ rest (symbolNameOf_of_item c hsi),
                List.nodup_cons] at hnd
              exact hnd.2
          · have hred : parseSymbolsAux acc (SExp.list (x₁ :: tail₁) :: rest)
                = parseSymbolsAux acc rest := by
              simp only [parseSymbolsAux]
              rw [if_neg c]
            rw [hred] at h
            have hso : symbolNameOf (SExp.list (x₁ :: tail₁)) = none := by
              simp only [symbolNameOf]
              rw [if_neg c]
            refine ih acc s h ?_ x tail n d hitem hx hok
            rwa [symbolNames_cons_none _ rest hso] at hnd

theorem parse_symbol_file_ok_elim {content : List SExp} {s : Dict (Dict String)}
    (h : parse_symbol_file content = .ok s) :
    parseSymbolsAux [] content = .ok s := by
  cases hv : findVersionFloat content with
  | error e =>
    have hred : parse_symbol_file content = .error e := by
      unfold parse_symbol_file
      rw [hv]
    rw [hred] at h
    exact absurd h (by simp)
  | ok vo =>
    cases vo with
    | none =>
      have hred : parse_symbol_file content = .error "KiCadVersionError" := by
        unfold parse_symbol_file
        rw [hv]
      rw [hred] at h
      exact absurd h (by simp)
    | some n =>
      have hred : parse_symbol_file content
          = (if n < 6 then Except.error "KiCadVersionError"
             else parseSymbolsAux [] content) := by
        unfold parse_symbol_file
        rw [hv]
      rw [hred] at h
      by_cases hlt : n < 6
      · rw [if_pos hlt] at h
        exact absurd h (by simp)
      · rwa [if_neg hlt] at h

theorem mem_of_dfind {α : Type} {k : String} {v : α} : ∀ {d : Dict α},
    dfind k d = some v → (k, v) ∈ d := by
  intro d
  induction d with
  | nil => intro h; simp [dfind] at h
  | cons e rest ih =>
    intro h
    obtain ⟨k₁, v₁⟩ := e
    by_cases h₁ : k₁ = k
    · subst h₁
      rw [dfind_cons_self] at h
      injection h with h
      exact h ▸ List.mem_cons_self _ _
    · rw [dfind_cons_ne h₁] at h
      exact List.mem_cons_of_mem _ (ih h)

theorem get_kicad_version_no_entry : ∀ (sexp : List SExp),
    (∀ item ∈ sexp, isVersionItem item = false) →
    get_kicad_version sexp = .ok 0 := by
  intro sexp
  induction sexp with
  | nil => intro _; rfl
  | cons item rest ih =>
    intro h
    have hrest := fun it hm => h it (List.mem_cons_of_mem _ hm)
    cases item with
    | sym a => exact (by simpa only [get_kicad_version] using ih hrest)
    | str a => exact (by simpa only [get_kicad_version] using ih hrest)
    | int a => exact (by simpa only [get_kicad_version] using ih hrest)
    | list elems =>
      cases elems with
      | nil => exact (by simpa only [get_kicad_version] using ih hrest)
      | cons x tail =>
        have hx : ¬ atomText x = some "version" := by
          have := h _ (List.mem_cons_self _ _)
          simpa [isVersionItem] using this
        have hred : get_kicad_version (SExp.list (x :: tail) :: rest)
            = get_kicad_version rest := by
          simp only [get_kicad_version]
          rw [if_neg hx]
        rw [hred]
        exact ih hrest

theorem get_kicad_version_first : ∀ (pre : List SExp) (x : SExp)
    (tail post : List SExp) (n : Int),
    (∀ item ∈ pre, isVersionItem item = false) →
    atomText x = some "version" → tail.get? 0 = some (SExp.int n) →
    get_kicad_version (pre ++ SExp.list (x :: tail) :: post) = .ok n := by
  intro pre
  induction pre with
  | nil =>
    intro x tail post n _ hx ht
    rw [List.nil_append]
    simp only [get_kicad_version]
    rw [if_pos hx, ht]
    rfl
  | cons p pre₁ ih =>
    intro x tail post n h hx ht
    have hpre := fun it hm => h it (List.mem_cons_of_mem _ hm)
    rw [List.cons_append]
    cases p with
    | sym a =>
      simp only [get_kicad_version]
      exact ih x tail post n hpre hx ht
    | str a =>
      simp only [get_kicad_version]
      exact ih x tail post n hpre hx ht
    | int a =>
      simp only [get_kicad_version]
      exact ih x tail post n hpre hx ht
    | list elems =>
      cases elems with
      | nil =>
        simp only [get_kicad_version]
        exact ih x tail post n hpre hx ht
      | cons y t₂ =>
        have hy : ¬ atomText y = some "version" := by
          have := h _ (List.mem_cons_self _ _)
          simpa [isVersionItem] using this
        have hred : get_kicad_version (SExp.list (y :: t₂)
              :: (pre₁ ++ SExp.list (x :: tail) :: post))
            = get_kicad_version (pre₁ ++ SExp.list (x :: tail) :: post) := by
          simp only [get_kicad_version]
          rw [if_neg hy]
        rw [hred]
        exact ih x tail post n hpre hx ht

/-- Claim C8 (confirmed): `get_kicad_version` returns the integer of the
first `(version n)` entry when one is present, and the sentinel `0`, as a
normal return value and not an error, when the header has no version
entry. -/
theorem c8_get_kicad_version_spec (sexp : List SExp) :
    ((∀ item ∈ sexp, isVersionItem item = false) →
      get_kicad_version sexp = .ok 0)
  ∧ (∀ (pre : List SExp) (x : SExp) (tail post : List SExp) (n : Int),
      sexp = pre ++ SExp.list (x :: tail) :: post →
      (∀ item ∈ pre, isVersionItem item = false) →
      atomText x = some "version" → tail.get? 0 = some (SExp.int n) →
      get_kicad_version sexp = .ok n) :=
  ⟨get_kicad_version_no_entry sexp,
   fun pre x tail post n hs hpre hx ht =>
     hs ▸ get_kicad_version_first pre x tail post n hpre hx ht⟩

/-- Witness for C8 at concrete headers: a header with no version entry
yields the sentinel `0`; a header whose first version entry is
`(version 20241209)` yields `20241209`. -/
theorem c8_get_kicad_version_witness :
    get_kicad_version [SExp.list [SExp.sym "generator", SExp.str "g"]] = .ok 0
  ∧ get_kicad_version [SExp.list [SExp.sym "generator", SExp.str "g"],
      SExp.list [SExp.sym "version", SExp.int 20241209]] = .ok 20241209 :=
  ⟨(c8_get_kicad_version_spec [SExp.list [SExp.sym "generator", SExp.str "g"]]).1
     (by
       intro it hm
       rw [List.mem_singleton] at hm
       subst hm
       rfl),
   (c8_get_kicad_version_spec [SExp.list [SExp.sym "generator", SExp.str "g"],
      SExp.list [SExp.sym "version", SExp.int 20241209]]).2
     [SExp.list [SExp.sym "generator", SExp.str "g"]]
     (SExp.sym "version") [SExp.int 20241209] [] 20241209 rfl
     (by
       intro it hm
       rw [List.mem_singleton] at hm
       subst hm
       rfl)
     (by decide) rfl⟩

/-- Claim C1 (code_bug): the construction-time assertion
`assert not derived_table and symbol_name.startswith("~")` is parsed by
Python as `(not derived_table) and (…startswith("~"))`, so it raises for
every symbol that is not a non-derived template.  Concretely, a library
whose only symbol `R1` is plain — not derived (`symbol_derived_from`
returns `None`) and not template-named — is rejected with the very message
that claims the symbol is "both a template and derived". -/
theorem c1_construction_rejects_plain_symbol :
    kicadSymbolLibraryInit (SExp.list [SExp.sym "kicad_symbol_lib",
      SExp.list [SExp.sym "version", SExp.int 20241209],
      SExp.list [SExp.sym "symbol", SExp.str "R1",
        SExp.list [SExp.sym "property", SExp.str "Value", SExp.str "10k"]]])
      = .error "Symbol R1 cannot be both a template and derived from another template"
  ∧ symbol_derived_from [SExp.sym "symbol", SExp.str "R1",
      SExp.list [SExp.sym "property", SExp.str "Value", SExp.str "10k"]] = .ok none
  ∧ pyStartsWith "R1" "~" = false := by
  refine ⟨rfl, rfl, by decide⟩

/-- Claim C2 (code_bug): `_parse_symbol_file` gates on `version < 6.0`
(comparing the date-style integer against the float `6.0`), not on the
minimum supported version `20211014`.  The tree `(kicad_symbol_lib
(version 20200101))` declares the integer version `20200101`, which is
below `20211014`, yet `_parse_symbol_file` (hence `read_symbol_file`)
accepts it — while `KiCadSymbolLibrary.__init__` on the same tree rejects
it, as the claim requires. -/
theorem c2_parse_accepts_pre_threshold_version :
    parse_symbol_file [SExp.sym "kicad_symbol_lib",
      SExp.list [SExp.sym "version", SExp.int 20200101]] = .ok []
  ∧ (20200101 : Int) < 20211014
  ∧ kicadSymbolLibraryInit (SExp.list [SExp.sym "kicad_symbol_lib",
      SExp.list [SExp.sym "version", SExp.int 20200101]])
      = .error "KiCad symbol library version must be >= 6.0" := by
  refine ⟨rfl, by decide, rfl⟩

/-- Claim C9 (confirmed): `read_xlsx_and_apply_to_sexp` copies
`original_symbols` only shallowly, so the per-symbol dicts of the copy
alias the caller's.  In the heap model: for a store holding symbol `R`
with `Value = "10k"` and a sheet whose row changes `Value` to `"22k"`,
the import loop writes through the shared inner dict, and dereferencing the
caller's *original* outer table afterwards no longer gives its pre-call
value. -/
theorem c9_shallow_copy_aliasing :
    applyTableHeap [("R", 0)] [[("Value", "10k"), ("new_name", "R")]]
      [⟨"~T", ["Symbol", "new_name", "Value"],
        [[("Symbol", "R"), ("new_name", "R"), ("Value", "22k")]]⟩]
      = .ok [[("Value", "22k"), ("new_name", "R")]]
  ∧ derefSymbols [("R", 0)] [[("Value", "22k"), ("new_name", "R")]]
      ≠ derefSymbols [("R", 0)] [[("Value", "10k"), ("new_name", "R")]] := by
  refine ⟨rfl, by decide⟩

/-- Counterexample to C5 as stated: for the mapping containing only the
self-extending template `~T` (its `extends` value is its own name), the
export produces the sheet `~T` whose single row's symbol identifier is the
template itself — so "the template itself is never a row" fails. -/
theorem c5_self_extending_template_is_a_row :
    write_symbols_to_xlsx [("~T", [("extends", "~T"), ("new_name", "~T")])]
      = [⟨"~T", ["Symbol", "new_name"], [[("Symbol", "~T"), ("new_name", "~T")]]⟩]
  ∧ dfind "Symbol" [("Symbol", "~T"), ("new_name", "~T")] = some "~T" := by
  refine ⟨rfl, rfl⟩

/-- Counterexample to C10 as stated: a symbol with a real property literally
named `extends` and *no* `(extends …)` sub-element still parses to a dict
containing the key `"extends"` — so "contains the pseudo-key `extends`
exactly when the symbol has an extends sub-element" fails as stated. -/
theorem c10_property_named_extends_defeats_exactly_when :
    parse_symbol_file [SExp.sym "kicad_symbol_lib",
      SExp.list [SExp.sym "version", SExp.int 20241209],
      SExp.list [SExp.sym "symbol", SExp.str "R",
        SExp.list [SExp.sym "property", SExp.str "extends", SExp.str "~T"]]]
      = .ok [("R", [("extends", "~T"), ("new_name", "R")])]
  ∧ dfind "extends" [("extends", "~T"), ("new_name", "R")] = some "~T"
  ∧ extendsPayloads [SExp.sym "symbol", SExp.str "R",
      SExp.list [SExp.sym "property", SExp.str "extends", SExp.str "~T"]] = [] := by
  refine ⟨rfl, rfl, rfl⟩

theorem lastExt_char : ∀ (l : List SExp) (ext : Option String),
    lastExt ext l = (match (extendsPayloads l).getLast? with
      | some e => some (pyStr e)
      | none => ext) := by
  intro l
  induction l with
  | nil => intro ext; rfl
  | cons s rest ih =>
    intro ext
    cases hep : extendsPayload s with
    | none =>
      have hE : extendsPayloads (s :: rest) = extendsPayloads rest := by
        rw [extendsPayloads, List.filterMap_cons_none hep]
        rfl
      rw [show lastExt ext (s :: rest) = lastExt ext rest from by
        simp only [lastExt, hep], ih, hE]
    | some e =>
      have hE : extendsPayloads (s :: rest) = e :: extendsPayloads rest := by
        rw [extendsPayloads, List.filterMap_cons_some hep]
        rfl
      rw [show lastExt ext (s :: rest) = lastExt (some (pyStr e)) rest from by
        simp only [lastExt, hep], ih, hE, List.getLast?_cons]
      cases hgl : (extendsPayloads rest).getLast? with
      | none => rfl
      | some e₂ => rfl

theorem propKeys_dinsertAll_find {l : List SExp} {k : String}
    (h : k ∉ propKeys l) :
    dfind k (dinsertAll [] (propPairs l)) = none := by
  rw [dfind_dinsertAll_not_mem _ h]
  rfl

/-- Claim C10 (corrected): every per-symbol dict of `read_symbol_file`
contains `"new_name"` mapped to the symbol's own name; and — provided the
symbol declares no real property literally named `extends` — it contains
`"extends"` (mapped to the last extends payload as a string) exactly when
the symbol has an `(extends …)` sub-element.  The second conjunct shows
that every dict `read_symbol_file` returns arises this way; the pseudo-keys
live in the same `Dict String` as real properties. -/
theorem c10_amended :
    (∀ (l : List SExp) (n : String) (d : Dict String),
      parseSymbolItem l = .ok (n, d) →
        dfind "new_name" d = some n
        ∧ ((∀ k ∈ propKeys l, k ≠ "extends") →
            (((∃ v, dfind "extends" d = some v) ↔ extendsPayloads l ≠ [])
             ∧ ∀ e, (extendsPayloads l).getLast? = some e →
                 dfind "extends" d = some (pyStr e))))
  ∧ (∀ (content : List SExp) (s : Dict (Dict String)),
      parse_symbol_file content = .ok s → ∀ e ∈ s,
        ∃ x tail, SExp.list (x :: tail) ∈ content ∧ atomText x = some "symbol"
          ∧ parseSymbolItem (x :: tail) = .ok e) := by
  constructor
  · intro l n d h
    obtain ⟨-, hd⟩ := parseSymbolItem_ok h
    rw [lastExt_char l none] at hd
    cases hgl : (extendsPayloads l).getLast? with
    | none =>
      rw [hgl] at hd
      have hnil : extendsPayloads l = [] := List.getLast?_eq_none_iff.mp hgl
      constructor
      · rw [hd]
        exact dfind_dinsert_self _ _ _
      · intro hkeys
        refine ⟨?_, ?_⟩
        · constructor
          · rintro ⟨v, hv⟩
            rw [hd, dfind_dinsert_ne _ _ (by decide : ("new_name" : String) ≠ "extends"),
              propKeys_dinsertAll_find (fun hc => (hkeys _ hc) rfl)] at hv
            exact absurd hv (by simp)
          · intro hne
            exact absurd hnil hne
        · intro e he
          exact absurd he (by simp)
    | some e₀ =>
      rw [hgl] at hd
      have hne : extendsPayloads l ≠ [] := by
        intro hc
        rw [List.getLast?_eq_none_iff.mpr hc] at hgl
        exact absurd hgl (by simp)
      constructor
      · rw [hd, dfind_dinsert_ne _ _ (by decide : ("extends" : String) ≠ "new_name")]
        exact dfind_dinsert_self _ _ _
      · intro _
        refine ⟨⟨fun _ => hne, fun _ => ?_⟩, ?_⟩
        · exact ⟨pyStr e₀, by rw [hd]; exact dfind_dinsert_self _ _ _⟩
        · intro e he
          injection he with he
          subst he
          rw [hd]
          exact dfind_dinsert_self _ _ _
  · intro content s h e he
    rcases parseSymbolsAux_mem content [] s (parse_symbol_file_ok_elim h) e he with
      h₁ | h₁
    · simp at h₁
    · exact h₁

/-- Witness for C10 at a concrete derived symbol `(symbol "R"
(extends "~T") (property "Value" "10k"))`: the parsed dict maps
`new_name` to `R` and `extends` to `~T`. -/
theorem c10_amended_witness :
    dfind "new_name" [("Value", "10k"), ("new_name", "R"), ("extends", "~T")]
      = some "R"
  ∧ dfind "extends" [("Value", "10k"), ("new_name", "R"), ("extends", "~T")]
      = some "~T" :=
  have h := c10_amended.1
    [SExp.sym "symbol", SExp.str "R",
     SExp.list [SExp.sym "extends", SExp.str "~T"],
     SExp.list [SExp.sym "property", SExp.str "Value", SExp.str "10k"]]
    "R" [("Value", "10k"), ("new_name", "R"), ("extends", "~T")] rfl
  ⟨h.1, (h.2 (by decide)).2 (SExp.str "~T") rfl⟩

theorem overlayRow_cons (props : Dict String) (c₁ : String) (c₂ : Option String)
    (rest : Dict (Option String)) :
    overlayRow props ((c₁, c₂) :: rest) =
      overlayRow (if c₁ ≠ "Symbol" then
          (match c₂ with
           | some v => dinsert c₁ v props
           | none => props)
        else props) rest := rfl

theorem dfind_overlayRow_not_mem : ∀ (cells : Dict (Option String))
    (props : Dict String) (k : String), k ∉ dkeys cells →
    dfind k (overlayRow props cells) = dfind k props := by
  intro cells
  induction cells with
  | nil => intro props k _; rfl
  | cons c rest ih =>
    intro props k hk
    obtain ⟨c₁, c₂⟩ := c
    rw [dkeys_cons, List.mem_cons] at hk
    push_neg at hk
    rw [overlayRow_cons, ih _ k hk.2]
    by_cases hs : c₁ ≠ "Symbol"
    · rw [if_pos hs]
      cases c₂ with
      | some v => exact dfind_dinsert_ne _ _ (Ne.symm hk.1)
      | none => rfl
    · rw [if_neg hs]

theorem dfind_overlayRow : ∀ (cells : Dict (Option String))
    (props : Dict String) (k : String), (dkeys cells).Nodup → k ≠ "Symbol" →
    dfind k (overlayRow props cells)
      = (match dfind k cells with
         | some (some v) => some v
         | _ => dfind k props) := by
  intro cells
  induction cells with
  | nil => intro props k _ _; rfl
  | cons c rest ih =>
    intro props k hnd hk
    obtain ⟨c₁, c₂⟩ := c
    rw [dkeys_cons, List.nodup_cons] at hnd
    rw [overlayRow_cons]
    by_cases hc : c₁ = k
    · subst hc
      rw [dfind_cons_self]
      cases c₂ with
      | some v =>
        rw [if_pos hk, dfind_overlayRow_not_mem rest _ c₁ hnd.1,
          dfind_dinsert_self]
      | none =>
        rw [if_pos hk, dfind_overlayRow_not_mem rest _ c₁ hnd.1]
    · rw [dfind_cons_ne hc]
      have hstep : dfind k (if c₁ ≠ "Symbol" then
          (match c₂ with
           | some v => dinsert c₁ v props
           | none => props)
          else props) = dfind k props := by
        by_cases hs : c₁ ≠ "Symbol"
        · rw [if_pos hs]
          cases c₂ with
          | some v => exact dfind_dinsert_ne _ _ hc
          | none => rfl
        · rw [if_neg hs]
      rw [ih _ k hnd.2 hk, hstep]

/-- Claim C7 (confirmed): for each imported row, a null identifier or an
identifier that is not a key of the current mapping leaves the mapping
unchanged, with no error; a known identifier overlays the symbol's dict:
all other symbols keep their dicts, and (for a genuine sheet, whose column
names are distinct) each key other than `Symbol` gets the row's cell value
exactly when that cell is non-null, keeping its old value otherwise. -/
theorem c7_import_row_handling (updated : Dict (Dict String)) (row : XRow) :
    (∀ name, dfind "Symbol" row.cells = some (some name) →
      dfind name updated = none → applyRow updated row = .ok updated)
  ∧ (dfind "Symbol" row.cells = some none → applyRow updated row = .ok updated)
  ∧ (∀ name props, dfind "Symbol" row.cells = some (some name) →
      dfind name updated = some props →
      applyRow updated row
          = .ok (dinsert name (overlayRow props row.cells) updated)
      ∧ (∀ n₂, n₂ ≠ name →
          dfind n₂ (dinsert name (overlayRow props row.cells) updated)
            = dfind n₂ updated)
      ∧ ((dkeys row.cells).Nodup → ∀ k, k ≠ "Symbol" →
          dfind k (overlayRow props row.cells)
            = (match dfind k row.cells with
               | some (some v) => some v
               | _ => dfind k props))) := by
  refine ⟨?_, ?_, ?_⟩
  · intro name hsym hfind
    simp only [applyRow]
    rw [hsym]
    show (match dfind name updated with
          | none => (Except.ok updated : Except String (Dict (Dict String)))
          | some props =>
            .ok (dinsert name (overlayRow props row.cells) updated))
        = .ok updated
    rw [hfind]
  · intro hsym
    simp only [applyRow]
    rw [hsym]
  · intro name props hsym hfind
    refine ⟨?_, ?_, ?_⟩
    · simp only [applyRow]
      rw [hsym]
      show (match dfind name updated with
            | none => (Except.ok updated : Except String (Dict (Dict String)))
            | some props =>
              .ok (dinsert name (overlayRow props row.cells) updated))
          = .ok (dinsert name (overlayRow props row.cells) updated)
      rw [hfind]
    · intro n₂ hn
      exact dfind_dinsert_ne _ _ (Ne.symm hn)
    · intro hnd k hk
      exact dfind_overlayRow row.cells props k hnd hk

/-- Witness for C7 at concrete rows over the mapping
`{R: {Value: 1}, S: {Value: 2}}`: a row with unknown identifier `X` is
skipped silently; a row for `R` overlays `R`'s dict only. -/
theorem c7_import_row_witness :
    applyRow [("R", [("Value", "1")]), ("S", [("Value", "2")])]
      ⟨[("Symbol", some "X"), ("Value", some "9")]⟩
      = .ok [("R", [("Value", "1")]), ("S", [("Value", "2")])]
  ∧ applyRow [("R", [("Value", "1")]), ("S", [("Value", "2")])]
      ⟨[("Symbol", some "R"), ("Value", some "9"), ("Extra", none)]⟩
      = .ok (dinsert "R" (overlayRow [("Value", "1")]
          [("Symbol", some "R"), ("Value", some "9"), ("Extra", none)])
          [("R", [("Value", "1")]), ("S", [("Value", "2")])]) :=
  ⟨(c7_import_row_handling [("R", [("Value", "1")]), ("S", [("Value", "2")])]
      ⟨[("Symbol", some "X"), ("Value", some "9")]⟩).1 "X" rfl rfl,
   ((c7_import_row_handling [("R", [("Value", "1")]), ("S", [("Value", "2")])]
      ⟨[("Symbol", some "R"), ("Value", some "9"), ("Extra", none)]⟩).2.2
      "R" [("Value", "1")] rfl rfl).1⟩

theorem buildRow_inner (n : String) (props : Dict String) (tps : List String) :
    tps.foldl (fun r p => dinsert p ((dfind p props).getD "") r) [("Symbol", n)]
      = dinsertAll [("Symbol", n)]
          (tps.map (fun p => (p, (dfind p props).getD ""))) := by
  rw [dinsertAll, List.foldl_map]

theorem map_fst_map_pair {α : Type} (g : String → α) : ∀ (l : List String),
    (l.map (fun p => (p, g p))).map Prod.fst = l := by
  intro l
  induction l with
  | nil => rfl
  | cons a t ih => rw [List.map_cons, List.map_cons, ih]

theorem dfind_buildRow_symbol (n : String) (props : Dict String)
    (tps : List String) (h : "Symbol" ∉ tps) :
    dfind "Symbol" (buildRow n props tps) = some n := by
  unfold buildRow
  rw [dfind_dinsert_ne _ _ (by decide : ("new_name" : String) ≠ "Symbol"),
    buildRow_inner, dfind_dinsertAll_not_mem _ (by rwa [map_fst_map_pair]),
    dfind_cons_self]

theorem dfind_buildRow_newname (n : String) (props : Dict String)
    (tps : List String) :
    dfind "new_name" (buildRow n props tps)
      = some ((dfind "new_name" props).getD n) := by
  unfold buildRow
  exact dfind_dinsert_self _ _ _

theorem dfind_buildRow_mem (n : String) (props : Dict String)
    (tps : List String) (k : String) (hk : k ∈ tps) (hkn : k ≠ "new_name") :
    dfind k (buildRow n props tps) = some ((dfind k props).getD "") := by
  unfold buildRow
  rw [dfind_dinsert_ne _ _ (Ne.symm hkn), buildRow_inner]
  exact dfind_dinsertAll_gmap _ _ hk

theorem derivedRows_cons_pos {e : String × Dict String}
    (m : Dict (Dict String)) (template : String) (tps : List String)
    (hc : dfind "extends" e.2 = some template) :
    derivedRows (e :: m) template tps
      = buildRow e.1 e.2 tps :: derivedRows m template tps := by
  have hfe : (fun e : String × Dict String =>
      if dfind "extends" e.2 = some template then some (buildRow e.1 e.2 tps)
      else none) e = some (buildRow e.1 e.2 tps) := if_pos hc
  rw [derivedRows, @List.filterMap_cons_some _ _ (fun e : String × Dict String =>
    if dfind "extends" e.2 = some template then some (buildRow e.1 e.2 tps)
    else none) e m _ hfe]
  rfl

theorem derivedRows_cons_neg {e : String × Dict String}
    (m : Dict (Dict String)) (template : String) (tps : List String)
    (hc : ¬ dfind "extends" e.2 = some template) :
    derivedRows (e :: m) template tps = derivedRows m template tps := by
  have hfe : (fun e : String × Dict String =>
      if dfind "extends" e.2 = some template then some (buildRow e.1 e.2 tps)
      else none) e = none := if_neg hc
  rw [derivedRows, @List.filterMap_cons_none _ _ (fun e : String × Dict String =>
    if dfind "extends" e.2 = some template then some (buildRow e.1 e.2 tps)
    else none) e m hfe]
  rfl

theorem derivedNames_cons_pos {e : String × Dict String}
    (m : Dict (Dict String)) (template : String)
    (hc : dfind "extends" e.2 = some template) :
    derivedNames (e :: m) template = e.1 :: derivedNames m template := by
  have hfe : (fun e : String × Dict String =>
      if dfind "extends" e.2 = some template then some e.1 else none) e
      = some e.1 := if_pos hc
  rw [derivedNames, @List.filterMap_cons_some _ _ (fun e : String × Dict String =>
    if dfind "extends" e.2 = some template then some e.1 else none) e m _ hfe]
  rfl

theorem derivedNames_cons_neg {e : String × Dict String}
    (m : Dict (Dict String)) (template : String)
    (hc : ¬ dfind "extends" e.2 = some template) :
    derivedNames (e :: m) template = derivedNames m template := by
  have hfe : (fun e : String × Dict String =>
      if dfind "extends" e.2 = some template then some e.1 else none) e
      = none := if_neg hc
  rw [derivedNames, @List.filterMap_cons_none _ _ (fun e : String × Dict String =>
    if dfind "extends" e.2 = some template then some e.1 else none) e m hfe]
  rfl

theorem derivedRows_nil_iff : ∀ (m : Dict (Dict String)) (template : String)
    (tps : List String),
    derivedRows m template tps = [] ↔ derivedNames m template = [] := by
  intro m
  induction m with
  | nil => intro template tps; exact ⟨fun _ => rfl, fun _ => rfl⟩
  | cons e rest ih =>
    intro template tps
    by_cases hc : dfind "extends" e.2 = some template
    · rw [derivedRows_cons_pos _ _ _ hc, derivedNames_cons_pos _ _ hc]
      simp
    · rw [derivedRows_cons_neg _ _ _ hc, derivedNames_cons_neg _ _ hc]
      exact ih template tps

theorem derivedRows_map_symbol : ∀ (m : Dict (Dict String)) (template : String)
    (tps : List String), "Symbol" ∉ tps →
    (derivedRows m template tps).map (dfind "Symbol")
      = (derivedNames m template).map some := by
  intro m
  induction m with
  | nil => intro template tps _; rfl
  | cons e rest ih =>
    intro template tps h
    by_cases hc : dfind "extends" e.2 = some template
    · rw [derivedRows_cons_pos _ _ _ hc, derivedNames_cons_pos _ _ hc,
        List.map_cons, List.map_cons, ih template tps h,
        dfind_buildRow_symbol _ _ _ h]
    · rw [derivedRows_cons_neg _ _ _ hc, derivedNames_cons_neg _ _ hc]
      exact ih template tps h

theorem not_mem_derivedNames (m : Dict (Dict String)) (template : String)
    (hself : ∀ e ∈ m, dfind "extends" e.2 ≠ some e.1) :
    template ∉ derivedNames m template := by
  intro hmem
  obtain ⟨e, hme, hfe⟩ := List.mem_filterMap.mp hmem
  by_cases hc : dfind "extends" e.2 = some template
  · rw [if_pos hc] at hfe
    injection hfe with hfe
    exact hself e hme (hfe ▸ hc)
  · rw [if_neg hc] at hfe
    exact absurd hfe (by simp)

theorem sheetFor_some {m : Dict (Dict String)} {t : String} {sh : Sheet}
    (h : sheetFor m t = some sh) :
    ∃ tp, dfind t m = some tp
      ∧ sh = ⟨t, "Symbol" :: "new_name" :: template_props tp,
              derivedRows m t (template_props tp)⟩
      ∧ derivedRows m t (template_props tp) ≠ [] := by
  cases hf : dfind t m with
  | none =>
    rw [sheetFor, hf] at h
    exact absurd h (by simp)
  | some tp =>
    rw [sheetFor, hf] at h
    have h₂ : (if derivedRows m t (template_props tp) = [] then (none : Option Sheet)
        else some ⟨t, "Symbol" :: "new_name" :: template_props tp,
                   derivedRows m t (template_props tp)⟩) = some sh := h
    by_cases hd : derivedRows m t (template_props tp) = []
    · rw [if_pos hd] at h₂
      exact absurd h₂ (by simp)
    · rw [if_neg hd] at h₂
      injection h₂ with h₂
      exact ⟨tp, rfl, h₂.symm, hd⟩

theorem sheetFor_eq_none {m : Dict (Dict String)} {t : String} {tp : Dict String}
    (hf : dfind t m = some tp) (hd : derivedRows m t (template_props tp) = []) :
    sheetFor m t = none := by
  rw [sheetFor, hf]
  show (if derivedRows m t (template_props tp) = [] then (none : Option Sheet)
      else some ⟨t, "Symbol" :: "new_name" :: template_props tp,
                 derivedRows m t (template_props tp)⟩) = none
  rw [if_pos hd]

theorem sheetFor_eq_some {m : Dict (Dict String)} {t : String} {tp : Dict String}
    (hf : dfind t m = some tp) (hd : derivedRows m t (template_props tp) ≠ []) :
    sheetFor m t = some ⟨t, "Symbol" :: "new_name" :: template_props tp,
                         derivedRows m t (template_props tp)⟩ := by
  rw [sheetFor, hf]
  show (if derivedRows m t (template_props tp) = [] then (none : Option Sheet)
      else some ⟨t, "Symbol" :: "new_name" :: template_props tp,
                 derivedRows m t (template_props tp)⟩) = _
  rw [if_neg hd]

theorem mem_dkeys_isSome {α : Type} {k : String} {d : Dict α}
    (h : k ∈ dkeys d) : ∃ v, dfind k d = some v := by
  cases hf : dfind k d with
  | none => exact absurd ((dfind_eq_none_iff k d).mp hf) (fun hc => hc h)
  | some v => exact ⟨v, rfl⟩

theorem write_sheet_names_aux : ∀ (ts : List String) (m : Dict (Dict String)),
    (∀ t ∈ ts, t ∈ dkeys m) →
    (ts.filterMap (sheetFor m)).map Sheet.sheetName
      = ts.filter (fun t => !(derivedNames m t).isEmpty) := by
  intro ts
  induction ts with
  | nil => intro m _; rfl
  | cons t rest ih =>
    intro m h
    obtain ⟨tp, hf⟩ := mem_dkeys_isSome (h t (List.mem_cons_self _ _))
    have hrest := fun x hx => h x (List.mem_cons_of_mem _ hx)
    by_cases hd : derivedRows m t (template_props tp) = []
    · have hnm : derivedNames m t = [] :=
        (derivedRows_nil_iff m t (template_props tp)).mp hd
      rw [List.filterMap_cons_none (sheetFor_eq_none hf hd),
        List.filter_cons_of_neg (by rw [hnm]; decide), ih m hrest]
    · have hnm : derivedNames m t ≠ [] := fun hc =>
        hd ((derivedRows_nil_iff m t (template_props tp)).mpr hc)
      rw [List.filterMap_cons_some (sheetFor_eq_some hf hd),
        List.map_cons, List.filter_cons_of_pos
          (by
            cases hcn : derivedNames m t with
            | nil => exact absurd hcn hnm
            | cons a b => rfl),
        ih m hrest]

/-- Claim C5 (corrected): for every symbol mapping — with unique keys, in
which no symbol's `extends` value is its own name, and whose templates
declare no property named `Symbol` — the export writes exactly one sheet
per template (name starting `~`) with at least one derived symbol, named
after it and in template order; templates with zero derived symbols
produce no sheet; each sheet's rows' identifier cells are exactly the
derived symbols of that template, and the template itself is never among
them.  (The self-extension proviso is forced by the counterexample
`c5_self_extending_template_is_a_row`.) -/
theorem c5_amended (m : Dict (Dict String)) (hnd : NodupKeys m)
    (hself : ∀ e ∈ m, dfind "extends" e.2 ≠ some e.1)
    (hsym : ∀ e ∈ m, pyStartsWith e.1 "~" = true → dfind "Symbol" e.2 = none) :
    (write_symbols_to_xlsx m).map Sheet.sheetName
      = ((dkeys m).filter (fun nm => pyStartsWith nm "~")).filter
          (fun nm => !(derivedNames m nm).isEmpty)
  ∧ ((write_symbols_to_xlsx m).map Sheet.sheetName).Nodup
  ∧ (∀ sh ∈ write_symbols_to_xlsx m,
      sh.rows.map (dfind "Symbol") = (derivedNames m sh.sheetName).map some
      ∧ sh.sheetName ∉ derivedNames m sh.sheetName) := by
  have hnames : (write_symbols_to_xlsx m).map Sheet.sheetName
      = ((dkeys m).filter (fun nm => pyStartsWith nm "~")).filter
          (fun nm => !(derivedNames m nm).isEmpty) := by
    rw [write_symbols_to_xlsx]
    exact write_sheet_names_aux _ m (fun t ht => (List.mem_filter.mp ht).1)
  refine ⟨hnames, ?_, ?_⟩
  · rw [hnames]
    exact List.Nodup.filter _ (List.Nodup.filter _ hnd)
  · intro sh hsh
    rw [write_symbols_to_xlsx] at hsh
    obtain ⟨t, ht, hsf⟩ := List.mem_filterMap.mp hsh
    obtain ⟨tp, hf, hsheq, hd⟩ := sheetFor_some hsf
    subst hsheq
    have htld : pyStartsWith t "~" = true := by
      have := (List.mem_filter.mp ht).2
      simpa using this
    have hSymNone : dfind "Symbol" tp = none :=
      hsym (t, tp) (mem_of_dfind hf) htld
    have hSymNotMem : "Symbol" ∉ template_props tp := by
      intro hc
      exact (dfind_eq_none_iff "Symbol" tp).mp hSymNone
        ((List.mem_filter.mp hc).1)
    exact ⟨derivedRows_map_symbol m t (template_props tp) hSymNotMem,
      not_mem_derivedNames m t hself⟩

/-- Witness for C5 at a concrete mapping with template `~T` (one derived
symbol `1.5k`), template `~U` (no derived symbols — no sheet), and the
plain symbol `X`: exactly the sheet `~T` is written. -/
theorem c5_amended_witness :
    (write_symbols_to_xlsx
      [("~T", [("Reference", "R"), ("new_name", "~T")]),
       ("1.5k", [("Reference", "R"), ("new_name", "1.5k"), ("extends", "~T")]),
       ("X", [("new_name", "X")]),
       ("~U", [("new_name", "~U")])]).map Sheet.sheetName = ["~T"] := by
  have h := c5_amended
    [("~T", [("Reference", "R"), ("new_name", "~T")]),
     ("1.5k", [("Reference", "R"), ("new_name", "1.5k"), ("extends", "~T")]),
     ("X", [("new_name", "X")]),
     ("~U", [("new_name", "~U")])]
    (by unfold NodupKeys; decide)
    (by
      intro e he
      simp only [List.mem_cons, List.not_mem_nil, or_false] at he
      rcases he with rfl | rfl | rfl | rfl <;> decide)
    (by
      intro e he
      simp only [List.mem_cons, List.not_mem_nil, or_false] at he
      rcases he with rfl | rfl | rfl | rfl <;> decide)
  rw [h.1]
  rfl

theorem parseSymbolsAux_item_ok : ∀ (l : List SExp) (acc s : Dict (Dict String)),
    parseSymbolsAux acc l = .ok s →
    ∀ x tail, SExp.list (x :: tail) ∈ l → atomText x = some "symbol" →
    ∃ nd, parseSymbolItem (x :: tail) = .ok nd := by
  intro l
  induction l with
  | nil =>
    intro acc s _ x tail hmem
    simp at hmem
  | cons item rest ih =>
    intro acc s h x tail hmem hx
    rcases List.mem_cons.mp hmem with hitem | hitem
    · subst hitem
      cases hsi : parseSymbolItem (x :: tail) with
      | error er =>
        have hred : parseSymbolsAux acc (SExp.list (x :: tail) :: rest)
            = .error er := by
          simp only [parseSymbolsAux]
          rw [if_pos hx, hsi]
        rw [hred] at h
        exact absurd h (by simp)
      | ok nd => exact ⟨nd, rfl⟩
    · cases item with
      | sym a => exact ih acc s (by simpa only [parseSymbolsAux] using h) x tail hitem hx
      | str a => exact ih acc s (by simpa only [parseSymbolsAux] using h) x tail hitem hx
      | int a => exact ih acc s (by simpa only [parseSymbolsAux] using h) x tail hitem hx
      | list elems =>
        cases elems with
        | nil => exact ih acc s (by simpa only [parseSymbolsAux] using h) x tail hitem hx
        | cons x₁ tail₁ =>
          by_cases c : atomText x₁ = some "symbol"
          · cases hsi : parseSymbolItem (x₁ :: tail₁) with
            | error er =>
              have hred : parseSymbolsAux acc (SExp.list (x₁ :: tail₁) :: rest)
                  = .error er := by
                simp only [parseSymbolsAux]
                rw [if_pos c, hsi]
              rw [hred] at h
              exact absurd h (by simp)
            | ok nd =>
              obtain ⟨n₁, d₁⟩ := nd
              have hred : parseSymbolsAux acc (SExp.list (x₁ :: tail₁) :: rest)
                  = parseSymbolsAux (dinsert n₁ d₁ acc) rest := by
                simp only [parseSymbolsAux]
                rw [if_pos c, hsi]
              rw [hred] at h
              exact ih _ s h x tail hitem hx
          · have hred : parseSymbolsAux acc (SExp.list (x₁ :: tail₁) :: rest)
                = parseSymbolsAux acc rest := by
              simp only [parseSymbolsAux]
              rw [if_neg c]
            rw [hred] at h
            exact ih acc s h x tail hitem hx

theorem template_props_parsed {l : List SExp} {n : String} {d : Dict String}
    (hok : parseSymbolItem l = .ok (n, d))
    (hkeys : ∀ k ∈ propKeys l, k ≠ "new_name" ∧ k ≠ "extends")
    (hnd : (propKeys l).Nodup) :
    template_props d = propKeys l := by
  obtain ⟨-, hd⟩ := parseSymbolItem_ok hok
  have hkeysProps : dkeys (dinsertAll [] (propPairs l)) = propKeys l := by
    have := @dkeys_dinsertAll String (propPairs l) ([] : Dict String)
      hnd (fun k _ => by simp [dkeys])
    simpa [propKeys] using this
  have hnn : "new_name" ∉ dkeys (dinsertAll [] (propPairs l)) := by
    rw [hkeysProps]
    intro hc
    exact (hkeys _ hc).1 rfl
  have hkeysD₁ : dkeys (dinsert "new_name" n (dinsertAll [] (propPairs l)))
      = propKeys l ++ ["new_name"] := by
    rw [dkeys_dinsert_not_mem _ hnn, hkeysProps]
  have hfilterP : (propKeys l).filter
      (fun k => k ≠ "extends" && k ≠ "new_name") = propKeys l := by
    rw [List.filter_eq_self]
    intro k hk
    rw [Bool.and_eq_true, decide_eq_true_eq, decide_eq_true_eq]
    exact ⟨(hkeys k hk).2, (hkeys k hk).1⟩
  cases hle : lastExt none l with
  | none =>
    rw [hle] at hd
    rw [hd]
    unfold template_props
    rw [hkeysD₁, List.filter_append, hfilterP]
    simp
  | some e =>
    rw [hle] at hd
    rw [hd]
    have hext : "extends" ∉ dkeys (dinsert "new_name" n (dinsertAll [] (propPairs l))) := by
      rw [hkeysD₁]
      rw [List.mem_append, List.mem_singleton]
      rintro (hc | hc)
      · exact (hkeys _ hc).2 rfl
      · exact absurd hc (by decide)
    unfold template_props
    rw [dkeys_dinsert_not_mem _ hext, hkeysD₁, List.filter_append,
      List.filter_append, hfilterP]
    simp

/-- Claim C6 (confirmed): every exported sheet's columns are the symbol
identifier column, then the rename-target column, then the template's
property keys in declaration order (first conjunct: the column list is
`Symbol :: new_name :: template_props`; second conjunct: for a freshly
parsed library with distinct symbol names whose template declares no
property named `new_name`/`extends` and no duplicate keys,
`template_props` is exactly the template's declared property keys in
order); and every cell of a derived symbol lacking one of the template's
properties is the empty string. -/
theorem c6_sheet_columns (t : List SExp) (s : Dict (Dict String))
    (hparse : parse_symbol_file t = .ok s) :
    (∀ sh ∈ write_symbols_to_xlsx s, ∃ tp,
        dfind sh.sheetName s = some tp
        ∧ sh.columns = "Symbol" :: "new_name" :: template_props tp
        ∧ ∀ r ∈ sh.rows, ∃ n p, (n, p) ∈ s ∧ r = buildRow n p (template_props tp)
            ∧ ∀ k ∈ template_props tp, dfind k p = none → dfind k r = some "")
  ∧ ((symbolNames t).Nodup →
      ∀ x tail, SExp.list (x :: tail) ∈ t → atomText x = some "symbol" →
      (∀ k ∈ propKeys (x :: tail), k ≠ "new_name" ∧ k ≠ "extends") →
      (propKeys (x :: tail)).Nodup →
      ∀ nameE, tail.get? 0 = some nameE →
      ∀ tp, dfind (pyStr nameE) s = some tp →
      template_props tp = propKeys (x :: tail)) := by
  constructor
  · intro sh hsh
    rw [write_symbols_to_xlsx] at hsh
    obtain ⟨t₁, _, hsf⟩ := List.mem_filterMap.mp hsh
    obtain ⟨tp, hf, hsheq, -⟩ := sheetFor_some hsf
    subst hsheq
    refine ⟨tp, hf, rfl, ?_⟩
    intro r hr
    obtain ⟨e, hme, hfe⟩ := List.mem_filterMap.mp hr
    by_cases hc : dfind "extends" e.2 = some t₁
    · have : (if dfind "extends" e.2 = some t₁
          then some (buildRow e.1 e.2 (template_props tp)) else none) = some r := hfe
      rw [if_pos hc] at this
      injection this with hre
      refine ⟨e.1, e.2, hme, hre.symm, ?_⟩
      intro k hk hnone
      have hkn : k ≠ "new_name" := by
        have := (List.mem_filter.mp hk).2
        rw [Bool.and_eq_true, decide_eq_true_eq, decide_eq_true_eq] at this
        exact this.2
      rw [← hre, dfind_buildRow_mem _ _ _ _ hk hkn, hnone]
      rfl
    · have : (if dfind "extends" e.2 = some t₁
          then some (buildRow e.1 e.2 (template_props tp)) else none) = some r := hfe
      rw [if_neg hc] at this
      exact absurd this (by simp)
  · intro hnames x tail hmem hx hkeys hnd nameE hget tp htp
    obtain ⟨⟨n, d⟩, hok⟩ := parseSymbolsAux_item_ok t [] s
      (parse_symbol_file_ok_elim hparse) x tail hmem hx
    have hfind := parseSymbolsAux_find t [] s
      (parse_symbol_file_ok_elim hparse) hnames x tail n d hmem hx hok
    have hn : n = pyStr nameE := by
      obtain ⟨⟨nameE₂, hget₂, hn₂⟩, -⟩ := parseSymbolItem_ok hok
      rw [List.get?_cons_succ, hget] at hget₂
      injection hget₂ with hget₂
      rw [hn₂, hget₂]
    rw [← hn] at htp
    rw [hfind] at htp
    injection htp with htp
    rw [← htp]
    exact template_props_parsed hok hkeys hnd

/-- Witness for C6 at the concrete template `(symbol "~T"
(property "Reference" "R") (property "Value" "~T"))`: the parsed template
dict yields exactly the declared keys, in declaration order. -/
theorem c6_sheet_columns_witness :
    template_props [("Reference", "R"), ("Value", "~T"), ("new_name", "~T")]
      = ["Reference", "Value"] := by
  have h := (c6_sheet_columns
    [SExp.sym "kicad_symbol_lib",
     SExp.list [SExp.sym "version", SExp.int 20241209],
     SExp.list [SExp.sym "symbol", SExp.str "~T",
       SExp.list [SExp.sym "property", SExp.str "Reference", SExp.str "R"],
       SExp.list [SExp.sym "property", SExp.str "Value", SExp.str "~T"]],
     SExp.list [SExp.sym "symbol", SExp.str "1k",
       SExp.list [SExp.sym "extends", SExp.str "~T"],
       SExp.list [SExp.sym "property", SExp.str "Reference", SExp.str "R"]]]
    [("~T", [("Reference", "R"), ("Value", "~T"), ("new_name", "~T")]),
     ("1k", [("Reference", "R"), ("new_name", "1k"), ("extends", "~T")])]
    rfl).2 (by decide)
    (SExp.sym "symbol")
    [SExp.str "~T",
     SExp.list [SExp.sym "property", SExp.str "Reference", SExp.str "R"],
     SExp.list [SExp.sym "property", SExp.str "Value", SExp.str "~T"]]
    (by decide) rfl
    (by decide) (by decide)
    (SExp.str "~T") rfl
    [("Reference", "R"), ("Value", "~T"), ("new_name", "~T")] rfl
  rw [h]
  rfl

theorem update_subitem_matching {props : Dict String} {h : SExp} {t : List SExp}
    {k : SExp} {v : String} (hh : atomText h = some "property")
    (hk : t.get? 0 = some k) (hv : dfind (pyStr k) props = some v) :
    update_subitem props (.list (h :: t)) = .list (h :: t.set 1 (.str v)) := by
  simp only [update_subitem]
  rw [if_pos hh, hk]
  show (match dfind (pyStr k) props with
        | some v => SExp.list (h :: t.set 1 (SExp.str v))
        | none => SExp.list (h :: t)) = _
  rw [hv]

theorem update_subitem_nonmatching {props : Dict String} : ∀ {sub : SExp},
    matchingProp props sub = false → update_subitem props sub = sub := by
  intro sub hm
  cases sub with
  | sym a => rfl
  | str a => rfl
  | int a => rfl
  | list elems =>
    cases elems with
    | nil => rfl
    | cons h t =>
      by_cases hh : atomText h = some "property"
      · cases hk : t.get? 0 with
        | none =>
          simp only [update_subitem]
          rw [if_pos hh, hk]
        | some k =>
          cases hv : dfind (pyStr k) props with
          | some v =>
            have hk2 : t[0]? = some k := by
              rw [← List.get?_eq_getElem?]
              exact hk
            exact absurd hm (by simp [matchingProp, hh, hk2, hv])
          | none =>
            simp only [update_subitem]
            rw [if_pos hh, hk]
            show (match dfind (pyStr k) props with
                  | some v => SExp.list (h :: t.set 1 (SExp.str v))
                  | none => SExp.list (h :: t)) = _
            rw [hv]
      · simp only [update_subitem]
        rw [if_neg hh]

theorem update_item_unknown {updated : Dict (Dict String)} : ∀ {item : SExp},
    knownSymbolItem updated item = false → update_item updated item = item := by
  intro item hm
  cases item with
  | sym a => rfl
  | str a => rfl
  | int a => rfl
  | list elems =>
    cases elems with
    | nil => rfl
    | cons x tail =>
      by_cases hx : atomText x = some "symbol"
      · cases hget : tail.get? 0 with
        | none =>
          simp only [update_item]
          rw [if_pos hx, hget]
        | some nameE =>
          cases hfind : dfind (pyStr nameE) updated with
          | some props =>
            have hget2 : tail[0]? = some nameE := by
              rw [← List.get?_eq_getElem?]
              exact hget
            exact absurd hm (by simp [knownSymbolItem, hx, hget2, hfind])
          | none =>
            simp only [update_item]
            rw [if_pos hx, hget]
            show (match dfind (pyStr nameE) updated with
                  | none => SExp.list (x :: tail)
                  | some props =>
                    match dfind "new_name" props with
                    | some nn =>
                      if nn ≠ pyStr nameE
                      then SExp.list (((x :: tail).map (update_subitem props)).set 1
                        (SExp.str nn))
                      else SExp.list ((x :: tail).map (update_subitem props))
                    | none => SExp.list ((x :: tail).map (update_subitem props)))
                  = _
            rw [hfind]
      · simp only [update_item]
        rw [if_neg hx]

theorem update_item_known {updated : Dict (Dict String)} {x : SExp}
    {tail : List SExp} {nameE : SExp} {props : Dict String}
    (hx : atomText x = some "symbol") (hget : tail.get? 0 = some nameE)
    (hfind : dfind (pyStr nameE) updated = some props) :
    update_item updated (.list (x :: tail))
      = (match dfind "new_name" props with
         | some nn =>
           if nn ≠ pyStr nameE
           then SExp.list (((x :: tail).map (update_subitem props)).set 1 (SExp.str nn))
           else SExp.list ((x :: tail).map (update_subitem props))
         | none => SExp.list ((x :: tail).map (update_subitem props))) := by
  simp only [update_item]
  rw [if_pos hx, hget]
  show (match dfind (pyStr nameE) updated with
        | none => SExp.list (x :: tail)
        | some props =>
          match dfind "new_name" props with
          | some nn =>
            if nn ≠ pyStr nameE
            then SExp.list (((x :: tail).map (update_subitem props)).set 1
              (SExp.str nn))
            else SExp.list ((x :: tail).map (update_subitem props))
          | none => SExp.list ((x :: tail).map (update_subitem props)))
        = _
  rw [hfind]

/-- Claim C4 (confirmed): the update changes only (a) the value slot
(index 2) of `(property k …)` sub-elements whose key is in the enclosing
updated symbol's mapping, and (b) the symbol's name element (index 1) when
`new_name` is present and differs; everything else — elements that are not
known symbol entries, non-property sub-elements, properties with unlisted
keys, and every other position — is unchanged. -/
theorem c4_update_frame (content : List SExp) (updated : Dict (Dict String)) :
    (update_sexp_with_symbols content updated).length = content.length
  ∧ (∀ i, (update_sexp_with_symbols content updated).get? i
        = (content.get? i).map (update_item updated))
  ∧ (∀ item, knownSymbolItem updated item = false →
      update_item updated item = item)
  ∧ (∀ props sub, matchingProp props sub = false →
      update_subitem props sub = sub)
  ∧ (∀ (props : Dict String) (h : SExp) (t : List SExp) (k : SExp) (v : String),
      atomText h = some "property" → t.get? 0 = some k →
      dfind (pyStr k) props = some v →
      update_subitem props (.list (h :: t)) = .list (h :: t.set 1 (.str v))
      ∧ ∀ j, j ≠ 2 → (h :: t.set 1 (.str v)).get? j = (h :: t).get? j)
  ∧ (∀ (x : SExp) (tail : List SExp) (nameE : SExp) (props : Dict String),
      atomText x = some "symbol" → tail.get? 0 = some nameE →
      dfind (pyStr nameE) updated = some props →
      ∃ l₁, update_item updated (.list (x :: tail)) = .list l₁
        ∧ l₁.length = (x :: tail).length
        ∧ (∀ j, j ≠ 1 →
            l₁.get? j = ((x :: tail).get? j).map (update_subitem props))
        ∧ l₁.get? 1 = some (renamedNameElem props nameE)) := by
  refine ⟨List.length_map _ _, fun i => List.get?_map _ _ i, ?_, ?_, ?_, ?_⟩
  · intro item hm
    exact update_item_unknown hm
  · intro props sub hm
    exact update_subitem_nonmatching hm
  · intro props h t k v hh hk hv
    refine ⟨update_subitem_matching hh hk hv, ?_⟩
    intro j hj
    cases j with
    | zero => rfl
    | succ j₁ =>
      have hne : (1 : Nat) ≠ j₁ := by
        intro hc
        exact hj (by rw [← hc])
      rw [List.get?_cons_succ, List.get?_cons_succ, List.get?_eq_getElem?,
        List.get?_eq_getElem?, List.getElem?_set_ne hne]
  · intro x tail nameE props hx hget hfind
    have htail : 1 < tail.length + 1 := by
      cases tail with
      | nil => simp [List.get?] at hget
      | cons a t₂ => simp
    have hmaplen : ((x :: tail).map (update_subitem props)).length = tail.length + 1 := by
      rw [List.length_map, List.length_cons]
    have hget1 : ((x :: tail).map (update_subitem props)).get? 1
        = some (update_subitem props nameE) := by
      rw [List.get?_map, List.get?_cons_succ, hget]
      rfl
    rw [update_item_known hx hget hfind]
    cases hnn : dfind "new_name" props with
    | none =>
      refine ⟨(x :: tail).map (update_subitem props), rfl, by
        rw [List.length_map], ?_, ?_⟩
      · intro j _
        exact List.get?_map _ _ j
      · rw [hget1]
        unfold renamedNameElem
        rw [hnn]
    | some nn =>
      by_cases hne : nn ≠ pyStr nameE
      · refine ⟨((x :: tail).map (update_subitem props)).set 1 (SExp.str nn),
          ?_, by rw [List.length_set, List.length_map], ?_, ?_⟩
        · show (if nn ≠ pyStr nameE
              then SExp.list (((x :: tail).map (update_subitem props)).set 1
                (SExp.str nn))
              else SExp.list ((x :: tail).map (update_subitem props)))
            = SExp.list (((x :: tail).map (update_subitem props)).set 1
                (SExp.str nn))
          rw [if_pos hne]
        · intro j hj
          rw [List.get?_eq_getElem?, List.getElem?_set_ne (fun hc => hj hc.symm),
            ← List.get?_eq_getElem?]
          exact List.get?_map _ _ j
        · rw [List.get?_eq_getElem?,
            List.getElem?_set_self (by rw [hmaplen]; exact htail)]
          unfold renamedNameElem
          rw [hnn]
          show some (SExp.str nn) = some (if nn ≠ pyStr nameE then SExp.str nn
            else update_subitem props nameE)
          rw [if_pos hne]
      · refine ⟨(x :: tail).map (update_subitem props), ?_, by
          rw [List.length_map], ?_, ?_⟩
        · show (if nn ≠ pyStr nameE
              then SExp.list (((x :: tail).map (update_subitem props)).set 1
                (SExp.str nn))
              else SExp.list ((x :: tail).map (update_subitem props)))
            = SExp.list ((x :: tail).map (update_subitem props))
          rw [if_neg hne]
        · intro j _
          exact List.get?_map _ _ j
        · rw [hget1]
          unfold renamedNameElem
          rw [hnn]
          show some (update_subitem props nameE)
            = some (if nn ≠ pyStr nameE then SExp.str nn
              else update_subitem props nameE)
          rw [if_neg hne]

/-- Witness for C4 at a concrete tree and mapping: the version entry, an
unrelated symbol, and a non-matching property are all unchanged. -/
theorem c4_update_frame_witness :
    update_item [("R", [("Value", "9")])]
      (SExp.list [SExp.sym "version", SExp.int 20241209])
      = SExp.list [SExp.sym "version", SExp.int 20241209]
  ∧ update_item [("R", [("Value", "9")])]
      (SExp.list [SExp.sym "symbol", SExp.str "S",
        SExp.list [SExp.sym "property", SExp.str "Value", SExp.str "1"]])
      = SExp.list [SExp.sym "symbol", SExp.str "S",
        SExp.list [SExp.sym "property", SExp.str "Value", SExp.str "1"]]
  ∧ update_subitem [("Value", "9")]
      (SExp.list [SExp.sym "property", SExp.str "Footprint", SExp.str "F"])
      = SExp.list [SExp.sym "property", SExp.str "Footprint", SExp.str "F"] :=
  ⟨(c4_update_frame [] [("R", [("Value", "9")])]).2.2.1 _ (by decide),
   (c4_update_frame [] [("R", [("Value", "9")])]).2.2.1 _ (by decide),
   (c4_update_frame [] [("R", [("Value", "9")])]).2.2.2.1 _ _ (by decide)⟩

theorem goodTree_names {t : List SExp} (h : goodTree t = true) :
    (symbolNames t).Nodup := by
  rw [goodTree, Bool.and_eq_true, decide_eq_true_eq] at h
  exact h.1

theorem goodTree_item {t : List SExp} {x : SExp} {tail : List SExp}
    (h : goodTree t = true) (hm : SExp.list (x :: tail) ∈ t)
    (hx : atomText x = some "symbol") : goodSymbolItem (x :: tail) = true := by
  rw [goodTree, Bool.and_eq_true] at h
  have h₂ : (if atomText x = some "symbol" then goodSymbolItem (x :: tail)
      else true) = true := List.all_eq_true.mp h.2 _ hm
  rwa [if_pos hx] at h₂

theorem goodSymbolItem_parts {l : List SExp} (h : goodSymbolItem l = true) :
    propValuesStr l = true ∧ (propKeys l).Nodup
    ∧ ∀ k ∈ propKeys l, k ≠ "new_name" ∧ k ≠ "extends" ∧ k ≠ "Symbol" := by
  rw [goodSymbolItem] at h
  simp only [Bool.and_eq_true, decide_eq_true_eq] at h
  refine ⟨h.1.1.2, h.1.2, ?_⟩
  intro k hk
  have := List.all_eq_true.mp h.2 _ hk
  simp only [Bool.and_eq_true, decide_eq_true_eq] at this
  exact ⟨this.1.1, this.1.2, this.2⟩

theorem propValuesStr_elim {l : List SExp} {h₂ : SExp} {t₂ : List SExp}
    (hall : propValuesStr l = true) (hm : SExp.list (h₂ :: t₂) ∈ l)
    (hh : atomText h₂ = some "property") {v : SExp} (hv : t₂.get? 1 = some v) :
    isStrAtom v = true := by
  have h₃ : (if atomText h₂ = some "property" then
      (match t₂.get? 1 with
       | some v => isStrAtom v
       | none => true)
      else true) = true := List.all_eq_true.mp hall _ hm
  rw [if_pos hh, hv] at h₃
  exact h₃

theorem parseSymbolItem_newname {l : List SExp} {n : String} {d : Dict String}
    (h : parseSymbolItem l = .ok (n, d)) : dfind "new_name" d = some n := by
  obtain ⟨-, hd⟩ := parseSymbolItem_ok h
  cases hle : lastExt none l with
  | none =>
    rw [hle] at hd
    have hd₂ : d = dinsert "new_name" n (dinsertAll [] (propPairs l)) := hd
    rw [hd₂]
    exact dfind_dinsert_self _ _ _
  | some e =>
    rw [hle] at hd
    have hd₂ : d = dinsert "extends" e
        (dinsert "new_name" n (dinsertAll [] (propPairs l))) := hd
    rw [hd₂, dfind_dinsert_ne _ _ (by decide : ("extends" : String) ≠ "new_name")]
    exact dfind_dinsert_self _ _ _

theorem parseSymbolItem_find_other {l : List SExp} {n : String} {d : Dict String}
    {k : String} (h : parseSymbolItem l = .ok (n, d)) (hk1 : k ≠ "new_name")
    (hk2 : k ≠ "extends") :
    dfind k d = dfind k (dinsertAll [] (propPairs l)) := by
  obtain ⟨-, hd⟩ := parseSymbolItem_ok h
  cases hle : lastExt none l with
  | none =>
    rw [hle] at hd
    have hd₂ : d = dinsert "new_name" n (dinsertAll [] (propPairs l)) := hd
    rw [hd₂, dfind_dinsert_ne _ _ (Ne.symm hk1)]
  | some e =>
    rw [hle] at hd
    have hd₂ : d = dinsert "extends" e
        (dinsert "new_name" n (dinsertAll [] (propPairs l))) := hd
    rw [hd₂, dfind_dinsert_ne _ _ (Ne.symm hk2),
      dfind_dinsert_ne _ _ (Ne.symm hk1)]

theorem parsePropsAux_prop_shape : ∀ (l : List SExp) (acc : Dict String)
    (ext : Option String) {res : Dict String × Option String},
    parsePropsAux acc ext l = .ok res →
    ∀ (h₂ : SExp) (t₂ : List SExp), SExp.list (h₂ :: t₂) ∈ l →
    atomText h₂ = some "property" →
    ∃ k v, t₂.get? 0 = some k ∧ t₂.get? 1 = some v := by
  intro l
  induction l with
  | nil =>
    intro acc ext res _ h₂ t₂ hm
    simp at hm
  | cons sub rest ih =>
    intro acc ext res h h₂ t₂ hm hh
    rcases List.mem_cons.mp hm with hsub | hsub
    · subst hsub
      cases ht0 : t₂.get? 0 with
      | none =>
        have hred : parsePropsAux acc ext (SExp.list (h₂ :: t₂) :: rest)
            = .error "IndexError" := by
          simp only [parsePropsAux]
          rw [if_pos hh, ht0]
        rw [hred] at h
        exact absurd h (by simp)
      | some k =>
        cases ht1 : t₂.get? 1 with
        | none =>
          have hred : parsePropsAux acc ext (SExp.list (h₂ :: t₂) :: rest)
              = .error "IndexError" := by
            simp only [parsePropsAux]
            rw [if_pos hh, ht0, ht1]
          rw [hred] at h
          exact absurd h (by simp)
        | some v => exact ⟨k, v, rfl, rfl⟩
    · cases sub with
      | sym a => exact ih acc ext (by simpa only [parsePropsAux] using h) h₂ t₂ hsub hh
      | str a => exact ih acc ext (by simpa only [parsePropsAux] using h) h₂ t₂ hsub hh
      | int a => exact ih acc ext (by simpa only [parsePropsAux] using h) h₂ t₂ hsub hh
      | list elems =>
        cases elems with
        | nil => exact ih acc ext (by simpa only [parsePropsAux] using h) h₂ t₂ hsub hh
        | cons hd td =>
          by_cases c₁ : atomText hd = some "property"
          · cases ht0 : td.get? 0 with
            | none =>
              have hred : parsePropsAux acc ext (SExp.list (hd :: td) :: rest)
                  = .error "IndexError" := by
                simp only [parsePropsAux]
                rw [if_pos c₁, ht0]
              rw [hred] at h
              exact absurd h (by simp)
            | some k =>
              cases ht1 : td.get? 1 with
              | none =>
                have hred : parsePropsAux acc ext (SExp.list (hd :: td) :: rest)
                    = .error "IndexError" := by
                  simp only [parsePropsAux]
                  rw [if_pos c₁, ht0, ht1]
                rw [hred] at h
                exact absurd h (by simp)
              | some v =>
                have hred : parsePropsAux acc ext (SExp.list (hd :: td) :: rest)
                    = parsePropsAux (dinsert (pyStr k) (pyStr v) acc) ext rest := by
                  simp only [parsePropsAux]
                  rw [if_pos c₁, ht0, ht1]
                rw [hred] at h
                exact ih _ _ h h₂ t₂ hsub hh
          · by_cases c₂ : atomText hd = some "extends"
            · cases ht0 : td.get? 0 with
              | none =>
                have hred : parsePropsAux acc ext (SExp.list (hd :: td) :: rest)
                    = .error "IndexError" := by
                  simp only [parsePropsAux]
                  rw [if_neg c₁, if_pos c₂, ht0]
                rw [hred] at h
                exact absurd h (by simp)
              | some e =>
                have hred : parsePropsAux acc ext (SExp.list (hd :: td) :: rest)
                    = parsePropsAux acc (some (pyStr e)) rest := by
                  simp only [parsePropsAux]
                  rw [if_neg c₁, if_pos c₂, ht0]
                rw [hred] at h
                exact ih _ _ h h₂ t₂ hsub hh
            · have hred : parsePropsAux acc ext (SExp.list (hd :: td) :: rest)
                  = parsePropsAux acc ext rest := by
                simp only [parsePropsAux]
                rw [if_neg c₁, if_neg c₂]
              rw [hred] at h
              exact ih _ _ h h₂ t₂ hsub hh

theorem parseSymbolItem_props_ok {l : List SExp} {n : String} {d : Dict String}
    (h : parseSymbolItem l = .ok (n, d)) :
    ∃ res, parsePropsAux [] none l = .ok res := by
  cases hget : l.get? 1 with
  | none =>
    simp only [parseSymbolItem, hget] at h
    exact absurd h (by simp)
  | some nameE =>
    cases hpp : parsePropsAux [] none l with
    | error e =>
      simp only [parseSymbolItem, hget, hpp] at h
      exact absurd h (by simp)
    | ok res => exact ⟨res, rfl⟩

theorem overlayRow_eq_self : ∀ (cells : Dict (Option String)) (props : Dict String),
    (∀ c ∈ cells, c.1 = "Symbol" ∨ c.2 = none
      ∨ ∃ v, c.2 = some v ∧ dfind c.1 props = some v) →
    overlayRow props cells = props := by
  intro cells
  induction cells with
  | nil => intro props _; rfl
  | cons c rest ih =>
    intro props h
    obtain ⟨c₁, c₂⟩ := c
    have hrest := fun x hx => h x (List.mem_cons_of_mem _ hx)
    rw [overlayRow_cons]
    rcases h (c₁, c₂) (List.mem_cons_self _ _) with hc | hc | ⟨v, hv, hf⟩
    · have hc₂ : c₁ = "Symbol" := hc
      rw [if_neg (by rw [hc₂]; exact fun hcc => hcc rfl)]
      exact ih props hrest
    · have hc₂ : c₂ = none := hc
      subst hc₂
      by_cases hs : c₁ ≠ "Symbol"
      · rw [if_pos hs]
        exact ih props hrest
      · rw [if_neg hs]
        exact ih props hrest
    · have hv₂ : c₂ = some v := hv
      have hf₂ : dfind c₁ props = some v := hf
      subst hv₂
      by_cases hs : c₁ ≠ "Symbol"
      · rw [if_pos hs]
        rw [show (match (some v : Option String) with
             | some v => dinsert c₁ v props
             | none => props) = props from dinsert_eq_of_dfind hf₂]
        exact ih props hrest
      · rw [if_neg hs]
        exact ih props hrest

theorem exportRow_cells_neutral {n : String} {p : Dict String}
    (hnew : dfind "new_name" p = some n)
    {tps : List String} (htn : "new_name" ∉ tps) :
    ∀ c ∈ (rowToXRow ("Symbol" :: "new_name" :: tps) (buildRow n p tps)).cells,
      c.1 = "Symbol" ∨ c.2 = none ∨ ∃ v, c.2 = some v ∧ dfind c.1 p = some v := by
  intro c hc
  obtain ⟨col, hcol, hceq⟩ := List.mem_map.mp hc
  subst hceq
  rcases List.mem_cons.mp hcol with h₁ | h₁
  · subst h₁
    exact Or.inl rfl
  rcases List.mem_cons.mp h₁ with h₂ | h₂
  · subst h₂
    by_cases hn : n = ""
    · refine Or.inr (Or.inl ?_)
      show (dfind "new_name" (buildRow n p tps)).bind excelCell = none
      rw [dfind_buildRow_newname, hnew]
      show excelCell n = none
      rw [excelCell, if_pos hn]
    · refine Or.inr (Or.inr ⟨n, ?_, hnew⟩)
      show (dfind "new_name" (buildRow n p tps)).bind excelCell = some n
      rw [dfind_buildRow_newname, hnew]
      show excelCell n = some n
      rw [excelCell, if_neg hn]
  · have hcn : col ≠ "new_name" := fun hcc => htn (hcc ▸ h₂)
    cases hf : dfind col p with
    | none =>
      refine Or.inr (Or.inl ?_)
      show (dfind col (buildRow n p tps)).bind excelCell = none
      rw [dfind_buildRow_mem _ _ _ _ h₂ hcn, hf]
      show excelCell "" = none
      rw [excelCell, if_pos rfl]
    | some v =>
      by_cases hv : v = ""
      · refine Or.inr (Or.inl ?_)
        show (dfind col (buildRow n p tps)).bind excelCell = none
        rw [dfind_buildRow_mem _ _ _ _ h₂ hcn, hf]
        show excelCell v = none
        rw [excelCell, if_pos hv]
      · refine Or.inr (Or.inr ⟨v, ?_, rfl⟩)
        show (dfind col (buildRow n p tps)).bind excelCell = some v
        rw [dfind_buildRow_mem _ _ _ _ h₂ hcn, hf]
        show excelCell v = some v
        rw [excelCell, if_neg hv]

theorem applyRow_export_neutral {s : Dict (Dict String)} (hnd : NodupKeys s)
    {n : String} {p : Dict String} (hmem : (n, p) ∈ s)
    (hnew : dfind "new_name" p = some n)
    {tps : List String} (hts : "Symbol" ∉ tps) (htn : "new_name" ∉ tps) :
    applyRow s (rowToXRow ("Symbol" :: "new_name" :: tps) (buildRow n p tps))
      = .ok s := by
  have hsymcell : dfind "Symbol"
      (rowToXRow ("Symbol" :: "new_name" :: tps) (buildRow n p tps)).cells
      = some ((dfind "Symbol" (buildRow n p tps)).bind excelCell) :=
    dfind_cons_self _ _ _
  rw [dfind_buildRow_symbol _ _ _ hts] at hsymcell
  by_cases hn : n = ""
  · have hcv : (some n : Option String).bind excelCell = none := by
      show excelCell n = none
      rw [excelCell, if_pos hn]
    rw [hcv] at hsymcell
    simp only [applyRow]
    rw [hsymcell]
  · have hcv : (some n : Option String).bind excelCell = some n := by
      show excelCell n = some n
      rw [excelCell, if_neg hn]
    rw [hcv] at hsymcell
    simp only [applyRow]
    rw [hsymcell]
    show (match dfind n s with
          | none => (Except.ok s : Except String (Dict (Dict String)))
          | some props => .ok (dinsert n (overlayRow props
              (rowToXRow ("Symbol" :: "new_name" :: tps) (buildRow n p tps)).cells) s))
        = .ok s
    rw [dfind_of_mem_nodup hmem hnd]
    show Except.ok (dinsert n (overlayRow p
        (rowToXRow ("Symbol" :: "new_name" :: tps) (buildRow n p tps)).cells) s)
      = .ok s
    rw [overlayRow_eq_self _ p (exportRow_cells_neutral hnew htn),
      dinsert_eq_of_dfind (dfind_of_mem_nodup hmem hnd)]

theorem applyRows_all_neutral {s : Dict (Dict String)} : ∀ (rows : List XRow),
    (∀ r ∈ rows, applyRow s r = .ok s) → applyRows s rows = .ok s := by
  intro rows
  induction rows with
  | nil => intro _; rfl
  | cons r rest ih =>
    intro h
    simp only [applyRows]
    rw [h r (List.mem_cons_self _ _)]
    exact ih (fun x hx => h x (List.mem_cons_of_mem _ hx))

theorem applyTable_all_neutral {s : Dict (Dict String)} : ∀ (sheets : List Sheet),
    (∀ sh ∈ sheets, applyRows s (sheetRead sh) = .ok s) →
    applyTable s sheets = .ok s := by
  intro sheets
  induction sheets with
  | nil => intro _; rfl
  | cons sh rest ih =>
    intro h
    simp only [applyTable]
    rw [h sh (List.mem_cons_self _ _)]
    exact ih (fun x hx => h x (List.mem_cons_of_mem _ hx))

theorem applyTable_export_eq {s : Dict (Dict String)} (hnd : NodupKeys s)
    (hnew : ∀ e ∈ s, dfind "new_name" e.2 = some e.1)
    (hsym : ∀ e ∈ s, dfind "Symbol" e.2 = none) :
    applyTable s (write_symbols_to_xlsx s) = .ok s := by
  apply applyTable_all_neutral
  intro sh hsh
  rw [write_symbols_to_xlsx] at hsh
  obtain ⟨t₁, _, hsf⟩ := List.mem_filterMap.mp hsh
  obtain ⟨tp, hf, hsheq, -⟩ := sheetFor_some hsf
  subst hsheq
  apply applyRows_all_neutral
  intro r hr
  obtain ⟨r₀, hr₀, hreq⟩ := List.mem_map.mp hr
  subst hreq
  obtain ⟨e, hme, hfe⟩ := List.mem_filterMap.mp hr₀
  have hfe₂ : (if dfind "extends" e.2 = some t₁
      then some (buildRow e.1 e.2 (template_props tp)) else none) = some r₀ := hfe
  by_cases hc : dfind "extends" e.2 = some t₁
  · rw [if_pos hc] at hfe₂
    injection hfe₂ with hfe₃
    obtain ⟨n, p⟩ := e
    have hts : "Symbol" ∉ template_props tp := by
      intro hcm
      exact (dfind_eq_none_iff "Symbol" tp).mp (hsym (t₁, tp) (mem_of_dfind hf))
        ((List.mem_filter.mp hcm).1)
    have htn : "new_name" ∉ template_props tp := by
      intro hcm
      have := (List.mem_filter.mp hcm).2
      rw [Bool.and_eq_true, decide_eq_true_eq, decide_eq_true_eq] at this
      exact this.2 rfl
    rw [← hfe₃]
    exact applyRow_export_neutral hnd hme (hnew _ hme) hts htn
  · rw [if_neg hc] at hfe₂
    exact absurd hfe₂ (by simp)

theorem update_subitem_id_of_good {l : List SExp} {n : String} {d : Dict String}
    (hok : parseSymbolItem l = .ok (n, d)) (hgood : goodSymbolItem l = true) :
    ∀ sub ∈ l, update_subitem d sub = sub := by
  obtain ⟨hvals, hnd, hkeys⟩ := goodSymbolItem_parts hgood
  intro sub hsub
  cases sub with
  | sym a => rfl
  | str a => rfl
  | int a => rfl
  | list elems =>
    cases elems with
    | nil => rfl
    | cons h₂ t₂ =>
      by_cases hh : atomText h₂ = some "property"
      · obtain ⟨res, hpp⟩ := parseSymbolItem_props_ok hok
        obtain ⟨k, v, ht0, ht1⟩ := parsePropsAux_prop_shape l [] none hpp h₂ t₂ hsub hh
        have hstr := propValuesStr_elim hvals hsub hh ht1
        cases v with
        | sym a => simp [isStrAtom] at hstr
        | int a => simp [isStrAtom] at hstr
        | list a => simp [isStrAtom] at hstr
        | str vs =>
          have hpe : propEntry (SExp.list (h₂ :: t₂)) = some (pyStr k, vs) := by
            simp only [propEntry]
            rw [if_pos hh, ht0, ht1]
            rfl
          have hpmem : (pyStr k, vs) ∈ propPairs l :=
            List.mem_filterMap.mpr ⟨_, hsub, hpe⟩
          have hkmem : pyStr k ∈ propKeys l :=
            List.mem_map_of_mem Prod.fst hpmem
          have hkne := hkeys _ hkmem
          have hfind : dfind (pyStr k) d = some vs := by
            rw [parseSymbolItem_find_other hok hkne.1 hkne.2.1]
            exact dfind_dinsertAll_mem_nodup _ hnd hpmem
          rw [update_subitem_matching hh ht0 hfind]
          cases t₂ with
          | nil => simp [List.get?] at ht0
          | cons a t₃ =>
            cases t₃ with
            | nil => simp [List.get?] at ht1
            | cons b t₄ =>
              rw [List.get?_cons_zero] at ht0
              injection ht0 with ht0
              rw [List.get?_cons_succ, List.get?_cons_zero] at ht1
              injection ht1 with ht1
              subst ht0
              subst ht1
              rfl
      · simp only [update_subitem]
        rw [if_neg hh]

theorem update_item_id_of_good {t : List SExp} {s : Dict (Dict String)}
    (hgood : goodTree t = true) (hps : parseSymbolsAux [] t = .ok s) :
    ∀ item ∈ t, update_item s item = item := by
  intro item hitem
  cases item with
  | sym a => rfl
  | str a => rfl
  | int a => rfl
  | list elems =>
    cases elems with
    | nil => rfl
    | cons x tail =>
      by_cases hx : atomText x = some "symbol"
      · obtain ⟨⟨n, d⟩, hok⟩ := parseSymbolsAux_item_ok t [] s hps x tail hitem hx
        have hfind := parseSymbolsAux_find t [] s hps (goodTree_names hgood)
          x tail n d hitem hx hok
        obtain ⟨⟨nameE, hget1, hn⟩, -⟩ := parseSymbolItem_ok hok
        rw [List.get?_cons_succ] at hget1
        have hfind₂ : dfind (pyStr nameE) s = some d := by
          rw [← hn]
          exact hfind
        rw [update_item_known hx hget1 hfind₂,
          parseSymbolItem_newname hok]
        show (if n ≠ pyStr nameE
            then SExp.list (((x :: tail).map (update_subitem d)).set 1 (SExp.str n))
            else SExp.list ((x :: tail).map (update_subitem d)))
          = SExp.list (x :: tail)
        rw [if_neg (by rw [hn]; exact fun hcc => hcc rfl)]
        have hid := update_subitem_id_of_good hok (goodTree_item hgood hitem hx)
        rw [List.map_congr_left (fun a ha => (hid a ha : update_subitem d a = a)),
          List.map_id']
      · have hk : knownSymbolItem s (SExp.list (x :: tail)) = false := by
          simp [knownSymbolItem, hx]
        exact update_item_unknown hk

theorem update_parse_id {t : List SExp} {s : Dict (Dict String)}
    (hgood : goodTree t = true) (hps : parseSymbolsAux [] t = .ok s) :
    update_sexp_with_symbols t s = t := by
  unfold update_sexp_with_symbols
  rw [List.map_congr_left
    (fun item hi => (update_item_id_of_good hgood hps item hi : update_item s item = item)),
    List.map_id']

/-- Counterexample to C3 as stated: in a library whose symbol `R` declares
a real property literally named `new_name` with value `"X"`, the untouched
round trip rewrites that property's value to `"R"` (the pseudo-key
`new_name` the parse inserted), so the regenerated tree differs from the
original. -/
theorem c3_roundtrip_counterexample :
    roundTrip [SExp.sym "kicad_symbol_lib",
      SExp.list [SExp.sym "version", SExp.int 20241209],
      SExp.list [SExp.sym "symbol", SExp.str "R",
        SExp.list [SExp.sym "property", SExp.str "new_name", SExp.str "X"]]]
      = .ok [SExp.sym "kicad_symbol_lib",
        SExp.list [SExp.sym "version", SExp.int 20241209],
        SExp.list [SExp.sym "symbol", SExp.str "R",
          SExp.list [SExp.sym "property", SExp.str "new_name", SExp.str "R"]]]
  ∧ [SExp.sym "kicad_symbol_lib",
      SExp.list [SExp.sym "version", SExp.int 20241209],
      SExp.list [SExp.sym "symbol", SExp.str "R",
        SExp.list [SExp.sym "property", SExp.str "new_name", SExp.str "R"]]]
    ≠ [SExp.sym "kicad_symbol_lib",
      SExp.list [SExp.sym "version", SExp.int 20241209],
      SExp.list [SExp.sym "symbol", SExp.str "R",
        SExp.list [SExp.sym "property", SExp.str "new_name", SExp.str "X"]]] := by
  refine ⟨rfl, by decide⟩

/-- Claim C3 (corrected): for a freshly parsed, unmutated library whose
tree is well-formed — distinct symbol names, per-symbol distinct property
keys, string-atom property values, and no property named `new_name`,
`extends` or `Symbol` — exporting the symbols, re-importing the resulting
table and regenerating the tree reproduces the original tree exactly. -/
theorem c3_roundtrip_amended (t : List SExp) (s : Dict (Dict String))
    (hgood : goodTree t = true) (hparse : parse_symbol_file t = .ok s) :
    roundTrip t = .ok t := by
  have hps := parse_symbol_file_ok_elim hparse
  have hnd : NodupKeys s := parseSymbolsAux_nodup t [] s List.nodup_nil hps
  have hmemfacts : ∀ e ∈ s, ∃ x tail, SExp.list (x :: tail) ∈ t
      ∧ atomText x = some "symbol" ∧ parseSymbolItem (x :: tail) = .ok e := by
    intro e he
    rcases parseSymbolsAux_mem t [] s hps e he with h₁ | h₁
    · simp at h₁
    · exact h₁
  have hnew : ∀ e ∈ s, dfind "new_name" e.2 = some e.1 := by
    intro e he
    obtain ⟨x, tail, _, _, hok⟩ := hmemfacts e he
    exact parseSymbolItem_newname hok
  have hsym : ∀ e ∈ s, dfind "Symbol" e.2 = none := by
    intro e he
    obtain ⟨x, tail, hmem, hx, hok⟩ := hmemfacts e he
    obtain ⟨-, -, hkeys⟩ := goodSymbolItem_parts (goodTree_item hgood hmem hx)
    rw [parseSymbolItem_find_other hok (by decide) (by decide)]
    exact propKeys_dinsertAll_find (fun hcm => (hkeys _ hcm).2.2 rfl)
  have happ := applyTable_export_eq hnd hnew hsym
  have hupd := update_parse_id hgood hps
  unfold roundTrip
  rw [hparse]
  show (match applyTable s (write_symbols_to_xlsx s) with
        | .error e => (Except.error e : Except String (List SExp))
        | .ok s₁ => .ok (update_sexp_with_symbols t s₁)) = .ok t
  rw [happ]
  show Except.ok (update_sexp_with_symbols t s) = .ok t
  rw [hupd]

/-- Witness for C3 at a concrete two-symbol library (template `~T`, derived
`1k`): the full export→import→regenerate pipeline returns the original
tree. -/
theorem c3_roundtrip_witness :
    roundTrip [SExp.sym "kicad_symbol_lib",
      SExp.list [SExp.sym "version", SExp.int 20241209],
      SExp.list [SExp.sym "symbol", SExp.str "~T",
        SExp.list [SExp.sym "property", SExp.str "Reference", SExp.str "R"],
        SExp.list [SExp.sym "property", SExp.str "Value", SExp.str "~T"]],
      SExp.list [SExp.sym "symbol", SExp.str "1k",
        SExp.list [SExp.sym "extends", SExp.str "~T"],
        SExp.list [SExp.sym "property", SExp.str "Reference", SExp.str "R"]]]
      = .ok [SExp.sym "kicad_symbol_lib",
        SExp.list [SExp.sym "version", SExp.int 20241209],
        SExp.list [SExp.sym "symbol", SExp.str "~T",
          SExp.list [SExp.sym "property", SExp.str "Reference", SExp.str "R"],
          SExp.list [SExp.sym "property", SExp.str "Value", SExp.str "~T"]],
        SExp.list [SExp.sym "symbol", SExp.str "1k",
          SExp.list [SExp.sym "extends", SExp.str "~T"],
          SExp.list [SExp.sym "property", SExp.str "Reference", SExp.str "R"]]] :=
  c3_roundtrip_amended _
    [("~T", [("Reference", "R"), ("Value", "~T"), ("new_name", "~T")]),
     ("1k", [("Reference", "R"), ("new_name", "1k"), ("extends", "~T")])]
    (by decide) rfl
